import Mathlib

/-!
Verification development for the `http_client` Odoo module: a shallow
embedding of the module's connection cache, close logic, default-option
merging, exception classification, verb dispatch (query-parameter policy)
and the request wizard's response decoder, together with theorems settling
the specification's claims against the embedded code.

Python dictionaries are embedded as association lists updated in place
(`pyUpsert`), mirroring CPython's insertion-order semantics; `{**a, **b}`
and `d.update(e)` become `pyDictUpdate`.
-/

set_option maxRecDepth 4000

/-- Python `d[k] = v` on a dict rendered as an association list: replace the
first binding of `k` in place, otherwise append at the end. -/
def pyUpsert {α : Type} (d : List (String × α)) (k : String) (v : α) :
    List (String × α) :=
  match d with
  | [] => [(k, v)]
  | (k', v') :: t => if k' = k then (k, v) :: t else (k', v') :: pyUpsert t k v

/-- Python `{**a, **b}` / `a.update(b)`: fold the bindings of `b` into `a`,
later bindings overriding earlier ones. -/
def pyDictUpdate {α : Type} (a b : List (String × α)) : List (String × α) :=
  b.foldl (fun d kv => pyUpsert d kv.1 kv.2) a

/-- Python `dict(pairs)`. -/
def pyDict {α : Type} (l : List (String × α)) : List (String × α) :=
  pyDictUpdate [] l

/-- Python `d.get(k)` / `d[k]` lookup. -/
def dictGet {α : Type} (d : List (String × α)) (k : String) : Option α :=
  (d.find? (fun kv => kv.1 = k)).map (fun kv => kv.2)

/-- Python `k in d`. -/
def containsKey {α : Type} (d : List (String × α)) (k : String) : Bool :=
  d.any (fun kv => kv.1 = k)

/-! ### Connection cache (`HTTPAbstract._get_connection` / `close`)

The class-level cache `_connection_cache` maps a model name (the claim's
"identity") to a connection object or `None`.  Connection objects are
represented by natural-number identifiers; `_init_connection` (implemented by
subclasses to construct a fresh urllib3 pool object) is modelled as
allocation of a fresh identifier from a counter carried in the state. -/

/-- State of the class-level connection cache: the `_connection_cache` dict
plus the allocator for fresh connection objects. -/
structure CacheState where
  cache : List (String × Option Nat)
  nextId : Nat
deriving DecidableEq

/-- The connection the cache currently serves for `name`: the truthiness test
`self._name in self._connection_cache and self._connection_cache[self._name]`
used by `_get_connection` (and by `close` via `if connection:`). -/
def cachedConn (st : CacheState) (name : String) : Option Nat :=
  (dictGet st.cache name).join

/-- `HTTPAbstract._get_connection`: return the cached connection when the
cache holds a truthy entry for `self._name`; otherwise invoke
`_init_connection` (modelled as drawing a fresh identifier) and store the
result.  The third component records whether the factory was invoked. -/
def HTTPAbstract.getConnection (st : CacheState) (name : String) :
    Nat × CacheState × Bool :=
  match cachedConn st name with
  | some c => (c, st, false)
  | none =>
      let conn := st.nextId
      (conn, ⟨pyUpsert st.cache name (some conn), st.nextId + 1⟩, true)

/-- Result of `HTTPAbstract.close`: whether an `HTTPClientError` was raised,
the cache state afterwards, and the connections on which the underlying
transport `close()` was invoked. -/
structure CloseOutcome where
  res : Except String Unit
  st : CacheState
  closedCalls : List Nat

/-- The cache-clearing tail of `HTTPAbstract.close`, and a note on the
whole method.  In `close`, `closeOk c` tells whether the underlying transport
`connection.close()` succeeds on `c`.  When it raises, the
`_handle_connection_exceptions(HTTPClientError)` wrapper itself fails while
re-raising (`HTTPClientError.__init__` accepts only a message, so the
two-argument call raises `TypeError`), and the outer `except Exception`
re-wraps that as `HTTPClientError(f"Error closing connection for ...")`; the
raise happens before the cache-clearing statement is reached, so the cache is
left untouched on failure.  On the non-raising paths the code then executes
the clearing statement `if self._name in self._connection_cache:
self._connection_cache[self._name] = None`, modelled by
`clearCacheEntry`. -/
def clearCacheEntry (st : CacheState) (name : String) : CacheState :=
  ⟨if containsKey st.cache name then pyUpsert st.cache name none
   else st.cache, st.nextId⟩

/-- `HTTPAbstract.close`; see `clearCacheEntry` above for the control flow. -/
def HTTPAbstract.close (closeOk : Nat → Bool) (st : CacheState)
    (name : String) : CloseOutcome :=
  match cachedConn st name with
  | some c =>
      if closeOk c then ⟨.ok (), clearCacheEntry st name, [c]⟩
      else ⟨.error ("Error closing connection for " ++ name), st, [c]⟩
  | none => ⟨.ok (), clearCacheEntry st name, []⟩

/-! ### Default connection options (`_get_options`, pool-manager defaults) -/

/-- Values stored in the options dict.  `timeoutDefault` stands for the
urllib3 sentinel `Timeout.DEFAULT_TIMEOUT`; `noneV` for Python `None`. -/
inductive OptVal : Type
  | noneV : OptVal
  | boolV (b : Bool) : OptVal
  | natV (n : Nat) : OptVal
  | strV (s : String) : OptVal
  | timeoutDefault : OptVal
deriving DecidableEq

/-- The literal default dict built by `HTTPAbstract._get_options`. -/
def defaultOptions : List (String × OptVal) :=
  [("timeout", .timeoutDefault), ("maxsize", .natV 1), ("retries", .noneV),
   ("block", .boolV false), ("headers", .noneV)]

/-- `HTTPAbstract._get_options`: the defaults overridden by the
identity-specific `_http_connection` dict via `{**defaults,
**self._http_connection}`. -/
def HTTPAbstract.getOptions (httpConnection : List (String × OptVal)) :
    List (String × OptVal) :=
  pyDictUpdate defaultOptions httpConnection

/-- `PoolManagerAbstract._init_connection` option preparation: take
`_get_options()` and set `options['num_pools'] = 10` when the key is absent
(the resulting dict is what the `PoolManager` constructor receives). -/
def PoolManagerAbstract.initOptions (httpConnection : List (String × OptVal)) :
    List (String × OptVal) :=
  if containsKey (HTTPAbstract.getOptions httpConnection) "num_pools" then
    HTTPAbstract.getOptions httpConnection
  else
    pyUpsert (HTTPAbstract.getOptions httpConnection) "num_pools" (.natV 10)

/-! ### Transport exceptions and the classifying handlers -/

/-- The exception classes named by the `except` clauses of
`_handle_request_exceptions` and `_handle_connection_exceptions`. -/
inductive PyClass : Type
  | timeoutErrorC | readTimeoutErrorC | connectTimeoutErrorC
  | newConnectionErrorC | sslErrorC | proxyErrorC | hostChangedErrorC
  | maxRetryErrorC | protocolErrorC | httpErrorC
  | locationValueErrorC | urlSchemeUnknownC | valueErrorC
  | closedPoolErrorC | emptyPoolErrorC | fullPoolErrorC
  | exceptionC
deriving DecidableEq

/-- Concrete exceptions that can reach the handlers: one constructor per
urllib3 exception class imported by `http_abstract.py`, plain `ValueError`,
and `other n` for any exception outside that set (so unrecognized
exceptions exist in the model). -/
inductive PyExc : Type
  | timeoutError | readTimeoutError | connectTimeoutError
  | newConnectionError | sslError | proxyError | hostChangedError
  | maxRetryError | protocolError | httpError
  | locationValueError | urlSchemeUnknown | valueError
  | closedPoolError | emptyPoolError | fullPoolError
  | other (tag : Nat)
deriving DecidableEq

/-- The classes an exception is an instance of: the relevant slice of the
urllib3 exception hierarchy (`NewConnectionError <: ConnectTimeoutError <:
TimeoutError <: HTTPError`, `ReadTimeoutError <: TimeoutError`,
`URLSchemeUnknown <: LocationValueError <: ValueError` and `<: HTTPError`,
`HostChangedError`/`MaxRetryError <: RequestError <: PoolError <: HTTPError`,
the pool errors `<: PoolError <: HTTPError`); only classes named by an
`except` clause are listed, since membership of unnamed intermediate classes
cannot affect clause selection. -/
def ancestors : PyExc → List PyClass
  | .timeoutError => [.timeoutErrorC, .httpErrorC, .exceptionC]
  | .readTimeoutError =>
      [.readTimeoutErrorC, .timeoutErrorC, .httpErrorC, .exceptionC]
  | .connectTimeoutError =>
      [.connectTimeoutErrorC, .timeoutErrorC, .httpErrorC, .exceptionC]
  | .newConnectionError =>
      [.newConnectionErrorC, .connectTimeoutErrorC, .timeoutErrorC,
       .httpErrorC, .exceptionC]
  | .sslError => [.sslErrorC, .httpErrorC, .exceptionC]
  | .proxyError => [.proxyErrorC, .httpErrorC, .exceptionC]
  | .hostChangedError => [.hostChangedErrorC, .httpErrorC, .exceptionC]
  | .maxRetryError => [.maxRetryErrorC, .httpErrorC, .exceptionC]
  | .protocolError => [.protocolErrorC, .httpErrorC, .exceptionC]
  | .httpError => [.httpErrorC, .exceptionC]
  | .locationValueError =>
      [.locationValueErrorC, .valueErrorC, .httpErrorC, .exceptionC]
  | .urlSchemeUnknown =>
      [.urlSchemeUnknownC, .locationValueErrorC, .valueErrorC, .httpErrorC,
       .exceptionC]
  | .valueError => [.valueErrorC, .exceptionC]
  | .closedPoolError => [.closedPoolErrorC, .httpErrorC, .exceptionC]
  | .emptyPoolError => [.emptyPoolErrorC, .httpErrorC, .exceptionC]
  | .fullPoolError => [.fullPoolErrorC, .httpErrorC, .exceptionC]
  | .other _ => [.exceptionC]

/-- Python `isinstance(e, c)`. -/
def isa (e : PyExc) (c : PyClass) : Bool := (ancestors e).contains c

/-- `str(e)`, standing in for the exception's message text in the wrapped
message (the model uses the class name). -/
def pyStr : PyExc → String
  | .timeoutError => "TimeoutError"
  | .readTimeoutError => "ReadTimeoutError"
  | .connectTimeoutError => "ConnectTimeoutError"
  | .newConnectionError => "NewConnectionError"
  | .sslError => "SSLError"
  | .proxyError => "ProxyError"
  | .hostChangedError => "HostChangedError"
  | .maxRetryError => "MaxRetryError"
  | .protocolError => "ProtocolError"
  | .httpError => "HTTPError"
  | .locationValueError => "LocationValueError"
  | .urlSchemeUnknown => "URLSchemeUnknown"
  | .valueError => "ValueError"
  | .closedPoolError => "ClosedPoolError"
  | .emptyPoolError => "EmptyPoolError"
  | .fullPoolError => "FullPoolError"
  | .other n => "Exception" ++ toString n

/-- The wrapper error raised by the handlers (`RequestError`,
`ConnectionInitError` and `URLOpenError` share this `__init__` shape): the
message gains the `" - Original error: "` suffix and the original exception
is stored in `original_error`. -/
structure WrappedError where
  message : String
  originalError : Option PyExc
deriving DecidableEq

/-- `error_class(message, e)` as defined in `exceptions.py`. -/
def mkWrapped (msg : String) (e : PyExc) : WrappedError :=
  ⟨msg ++ " - Original error: " ++ pyStr e, some e⟩

/-- `HTTPAbstract._handle_request_exceptions` translated clause by clause:
a Python `except` clause fires when the raised exception is an instance of
one of its classes, and clauses are tested in order of appearance. -/
def HTTPAbstract.handleRequestExceptions (method url : String) (e : PyExc) :
    WrappedError :=
  if isa e .timeoutErrorC || isa e .readTimeoutErrorC ||
      isa e .connectTimeoutErrorC then
    mkWrapped ("Request timeout for " ++ method ++ " " ++ url) e
  else if isa e .sslErrorC || isa e .proxyErrorC then
    mkWrapped ("SSL or proxy error for " ++ method ++ " " ++ url) e
  else if isa e .hostChangedErrorC then
    mkWrapped ("Host changed error for " ++ method ++ " " ++ url) e
  else if isa e .maxRetryErrorC then
    mkWrapped ("Max retries exceeded for " ++ method ++ " " ++ url) e
  else if isa e .newConnectionErrorC then
    mkWrapped ("Connection error for " ++ method ++ " " ++ url) e
  else if isa e .protocolErrorC then
    mkWrapped ("Protocol error for " ++ method ++ " " ++ url) e
  else if isa e .httpErrorC then
    mkWrapped ("HTTP error for " ++ method ++ " " ++ url) e
  else
    mkWrapped ("Unexpected error for " ++ method ++ " " ++ url) e

/-- `HTTPAbstract._handle_connection_exceptions` translated clause by
clause. -/
def HTTPAbstract.handleConnectionExceptions (e : PyExc) : WrappedError :=
  if isa e .locationValueErrorC || isa e .valueErrorC then
    mkWrapped "Invalid connection parameters" e
  else if isa e .urlSchemeUnknownC then
    mkWrapped "Unknown URL scheme" e
  else if isa e .timeoutErrorC || isa e .connectTimeoutErrorC then
    mkWrapped "Connection timeout" e
  else if isa e .sslErrorC || isa e .proxyErrorC then
    mkWrapped "SSL or proxy error" e
  else if isa e .closedPoolErrorC || isa e .emptyPoolErrorC ||
      isa e .fullPoolErrorC then
    mkWrapped "Pool error" e
  else if isa e .newConnectionErrorC then
    mkWrapped "Failed to establish a new connection" e
  else if isa e .httpErrorC then
    mkWrapped "HTTP error" e
  else
    mkWrapped "Unexpected error" e

/-- The request-phase handler read as the spec words it: an ordered rule
list, each rule a set of exception classes with its message. -/
def requestRules (method url : String) : List (List PyClass × String) :=
  [([.timeoutErrorC, .readTimeoutErrorC, .connectTimeoutErrorC],
    "Request timeout for " ++ method ++ " " ++ url),
   ([.sslErrorC, .proxyErrorC],
    "SSL or proxy error for " ++ method ++ " " ++ url),
   ([.hostChangedErrorC], "Host changed error for " ++ method ++ " " ++ url),
   ([.maxRetryErrorC], "Max retries exceeded for " ++ method ++ " " ++ url),
   ([.newConnectionErrorC], "Connection error for " ++ method ++ " " ++ url),
   ([.protocolErrorC], "Protocol error for " ++ method ++ " " ++ url),
   ([.httpErrorC], "HTTP error for " ++ method ++ " " ++ url)]

/-- The connection-phase handler read as an ordered rule list. -/
def connectionRules : List (List PyClass × String) :=
  [([.locationValueErrorC, .valueErrorC], "Invalid connection parameters"),
   ([.urlSchemeUnknownC], "Unknown URL scheme"),
   ([.timeoutErrorC, .connectTimeoutErrorC], "Connection timeout"),
   ([.sslErrorC, .proxyErrorC], "SSL or proxy error"),
   ([.closedPoolErrorC, .emptyPoolErrorC, .fullPoolErrorC], "Pool error"),
   ([.newConnectionErrorC], "Failed to establish a new connection"),
   ([.httpErrorC], "HTTP error")]

/-- First-match classification over an ordered rule list, with a fallback
for unrecognized exceptions. -/
def classifyFirstMatch (rules : List (List PyClass × String))
    (fallback : String) (e : PyExc) : String :=
  match rules.find? (fun r => r.1.any (fun c => isa e c)) with
  | some r => r.2
  | none => fallback

/-! ### Request dispatch and the verb methods -/

/-- String-valued Python dict (used for `fields`, `headers`, `params`). -/
abbrev StrDict := List (String × String)

/-- urllib3 `make_headers(accept_encoding=True)`. -/
def make_headers (accept_encoding : Bool) : StrDict :=
  if accept_encoding then [("accept-encoding", "gzip,deflate")] else []

/-- The argument tuple `HTTPAbstract.request`/the verb methods hand to
`conn.request(method, url, fields=fields, headers=headers, **kwargs)`. -/
structure Dispatched where
  method : String
  url : String
  fields : Option StrDict
  headers : Option StrDict
deriving DecidableEq

/-- `HTTPAbstract.request`: when `headers is None` the code evaluates
`make_headers(accept_encoding=True)` without binding the result, so the
constructed default headers are discarded; the request is then dispatched
with the caller's arguments unchanged. -/
def HTTPAbstract.request (method url : String)
    (fields headers : Option StrDict) : Dispatched :=
  let _discarded := if headers.isNone then some (make_headers true) else none
  ⟨method, url, fields, headers⟩

/-- The two lines shared by `get`/`delete`/`head`/`options`/`trace`:
`if params: fields = params if fields is None else {**fields, **params}`
(a falsy `params` — `None` or an empty dict — leaves `fields` alone). -/
def mergeParamsIntoFields (fields params : Option StrDict) : Option StrDict :=
  match params with
  | some p =>
      if p.isEmpty then fields
      else
        match fields with
        | none => some p
        | some f => some (pyDictUpdate f p)
  | none => fields

/-- `HTTPAbstract.get`. -/
def HTTPAbstract.get (url : String) (fields headers params : Option StrDict) :
    Dispatched :=
  HTTPAbstract.request "GET" url (mergeParamsIntoFields fields params) headers

/-- `HTTPAbstract.delete`. -/
def HTTPAbstract.delete (url : String)
    (fields headers params : Option StrDict) : Dispatched :=
  HTTPAbstract.request "DELETE" url (mergeParamsIntoFields fields params)
    headers

/-- `HTTPAbstract.head`. -/
def HTTPAbstract.head (url : String)
    (fields headers params : Option StrDict) : Dispatched :=
  HTTPAbstract.request "HEAD" url (mergeParamsIntoFields fields params)
    headers

/-- `HTTPAbstract.options`. -/
def HTTPAbstract.options (url : String)
    (fields headers params : Option StrDict) : Dispatched :=
  HTTPAbstract.request "OPTIONS" url (mergeParamsIntoFields fields params)
    headers

/-- `HTTPAbstract.trace`. -/
def HTTPAbstract.trace (url : String)
    (fields headers params : Option StrDict) : Dispatched :=
  HTTPAbstract.request "TRACE" url (mergeParamsIntoFields fields params)
    headers

/-! ### URL handling: `urllib.parse` model and `_prepare_url`

`_prepare_url` uses `urlparse`, `parse_qsl`, `urlencode` and `urlunparse`
from the standard library.  These collaborators are modelled below at the
character-list level; percent-escaping is modelled only through its
plus/space component, so the theorems about them restrict query keys and
values to characters `quote_plus` passes through unescaped (plus the
space). -/

/-- Characters allowed in a URL scheme (`urllib.parse.scheme_chars`). -/
def schemeChar (c : Char) : Bool :=
  c.isAlpha || c.isDigit || c = '+' || c = '-' || c = '.'

/-- Split at the first occurrence of `sep` (Python `s.split(sep, 1)` when it
finds the separator; `none` when `sep` does not occur). -/
def splitOnceChar (sep : Char) : List Char → Option (List Char × List Char)
  | [] => none
  | c :: cs =>
      if c = sep then some ([], cs)
      else
        match splitOnceChar sep cs with
        | some (a, b) => some (c :: a, b)
        | none => none

/-- Split at the last occurrence of `sep` (`str.rfind` based splitting). -/
def splitLastChar (sep : Char) (l : List Char) : Option (List Char × List Char) :=
  match splitOnceChar sep l.reverse with
  | some (a, b) => some (b.reverse, a.reverse)
  | none => none

/-- Take characters until the first one satisfying `stop`, returning the
prefix and the remainder including the stop character
(`urllib.parse._splitnetloc` with its `'/?#'` delimiters). -/
def takeUntilAny (stop : Char → Bool) : List Char → List Char × List Char
  | [] => ([], [])
  | c :: cs =>
      if stop c then ([], c :: cs)
      else
        let (a, b) := takeUntilAny stop cs
        (c :: a, b)

/-- The six components returned by `urllib.parse.urlparse`. -/
structure UrlParts where
  scheme : List Char
  netloc : List Char
  path : List Char
  params : List Char
  query : List Char
  fragment : List Char
deriving DecidableEq

/-- `urllib.parse._splitparams`, guarded by `if ';' in p` as in
`urlparse`: split the `;params` suffix of the last path segment. -/
def splitParamsL (p : List Char) : List Char × List Char :=
  if p.any (fun c => c = ';') then
    match splitLastChar '/' p with
    | some (before, seg) =>
        match splitOnceChar ';' seg with
        | some (a, b) => (before ++ '/' :: a, b)
        | none => (p, [])
    | none =>
        match splitOnceChar ';' p with
        | some (a, b) => (a, b)
        | none => (p, [])
  else (p, [])

/-- Scheme extraction of `urlsplit`: the run before the first `:` counts as
the scheme when it starts with a letter and uses only scheme characters;
it is lowercased. -/
def extractScheme (url : List Char) : List Char × List Char :=
  match splitOnceChar ':' url with
  | some (pre, post) =>
      match pre with
      | [] => ([], url)
      | c :: _ =>
          if c.isAlpha && pre.all schemeChar then (pre.map Char.toLower, post)
          else ([], url)
  | none => ([], url)

/-- Netloc extraction of `urlsplit`: after a leading `//`, up to `/?#`. -/
def extractNetloc (rest : List Char) : List Char × List Char :=
  match rest with
  | '/' :: '/' :: r =>
      takeUntilAny (fun c => c = '/' || c = '?' || c = '#') r
  | r => ([], r)

/-- Python `s.split(sep, 1)` keeping an absent separator as an empty
second part (the fragment/query splits of `urlsplit`). -/
def splitSuffix (sep : Char) (l : List Char) : List Char × List Char :=
  match splitOnceChar sep l with
  | some (a, b) => (a, b)
  | none => (l, [])

/-- `urllib.parse.urlparse` (via `urlsplit` and `_splitparams`): extract the
scheme, the netloc after `//` up to `/?#`, then split off the fragment at
the first `#`, the query at the first `?`, and the path's `;params`. -/
def urlparseL (url : List Char) : UrlParts :=
  let sp := extractScheme url
  let nl := extractNetloc sp.2
  let fr := splitSuffix '#' nl.2
  let qr := splitSuffix '?' fr.1
  let pp := splitParamsL qr.1
  ⟨sp.1, nl.1, pp.1, pp.2, qr.2, fr.2⟩

/-- `urllib.parse.urlunparse` / `urlunsplit`. -/
def urlunparseL (u : UrlParts) : List Char :=
  let url0 := if u.params.isEmpty then u.path else u.path ++ ';' :: u.params
  let url1 :=
    if !u.netloc.isEmpty || decide (url0.take 2 = ['/', '/']) then
      '/' :: '/' :: u.netloc ++
        (if !url0.isEmpty && !decide (url0.take 1 = ['/']) then '/' :: url0
         else url0)
    else url0
  let url2 := if u.scheme.isEmpty then url1 else u.scheme ++ ':' :: url1
  let url3 := if u.query.isEmpty then url2 else url2 ++ '?' :: u.query
  if u.fragment.isEmpty then url3 else url3 ++ '#' :: u.fragment

/-- Python `s.split(sep)` (every occurrence), accumulator version. -/
def splitEveryAux (sep : Char) : List Char → List Char → List (List Char)
  | [], acc => [acc.reverse]
  | c :: cs, acc =>
      if c = sep then acc.reverse :: splitEveryAux sep cs []
      else splitEveryAux sep cs (c :: acc)

/-- Python `s.split(sep)`. -/
def splitEvery (sep : Char) (l : List Char) : List (List Char) :=
  splitEveryAux sep l []

/-- `"&".join`-style interleaving. -/
def joinWithChar (sep : Char) : List (List Char) → List Char
  | [] => []
  | [x] => x
  | x :: xs => x ++ sep :: joinWithChar sep xs

/-- `urllib.parse.unquote_plus`, modelled for data without percent-escapes:
`+` becomes a space. -/
def unquotePlus (l : List Char) : List Char :=
  l.map (fun c => if c = '+' then ' ' else c)

/-- `urllib.parse.quote_plus`, modelled on strings whose characters need no
percent-escaping: a space becomes `+`. -/
def quotePlus (l : List Char) : List Char :=
  l.map (fun c => if c = ' ' then '+' else c)

/-- Characters `quote_plus` passes through unescaped, plus the space. -/
def qsafeChar (c : Char) : Bool :=
  c.isAlphanum || c = '_' || c = '.' || c = '-' || c = '~' || c = ' '

/-- Characters that can appear in an `urlencode` output: the quoted safe
characters together with `+`, `=` and `&`. -/
def qsChar (c : Char) : Bool :=
  c.isAlphanum || c = '_' || c = '.' || c = '-' || c = '~' || c = '+' ||
    c = '=' || c = '&'

/-- `urllib.parse.parse_qsl` with its defaults (`keep_blank_values=False`):
split on `&`, keep pairs containing `=` with a nonempty value, unquote both
sides. -/
def parseQsl (qs : List Char) : List (String × String) :=
  (splitEvery '&' qs).foldr
    (fun pair acc =>
      if pair.isEmpty then acc
      else
        match splitOnceChar '=' pair with
        | some (n, v) =>
            if v.isEmpty then acc
            else (String.mk (unquotePlus n), String.mk (unquotePlus v)) :: acc
        | none => acc) []

/-- `urllib.parse.urlencode` over a dict:
`quote_plus(k) + "=" + quote_plus(v)` joined by `&`. -/
def urlencodeL (d : StrDict) : List Char :=
  joinWithChar '&' (d.map (fun kv => quotePlus kv.1.data ++ '=' :: quotePlus kv.2.data))

/-- `HTTPAbstract._prepare_url`: when `params` is truthy, parse the URL,
overlay `params` on `dict(parse_qsl(query))`, re-encode the query and
rebuild the URL; otherwise return the URL unchanged. -/
def HTTPAbstract.prepare_url (url : String) (params : Option StrDict) :
    String :=
  match params with
  | some p =>
      if p.isEmpty then url
      else
        let parts := urlparseL url.data
        let query := pyDictUpdate (pyDict (parseQsl parts.query)) p
        String.mk (urlunparseL { parts with query := urlencodeL query })
  | none => url

/-- `HTTPAbstract.post`. -/
def HTTPAbstract.post (url : String)
    (fields headers params : Option StrDict) : Dispatched :=
  HTTPAbstract.request "POST" (HTTPAbstract.prepare_url url params) fields
    headers

/-- `HTTPAbstract.put`. -/
def HTTPAbstract.put (url : String)
    (fields headers params : Option StrDict) : Dispatched :=
  HTTPAbstract.request "PUT" (HTTPAbstract.prepare_url url params) fields
    headers

/-- `HTTPAbstract.patch`. -/
def HTTPAbstract.patch (url : String)
    (fields headers params : Option StrDict) : Dispatched :=
  HTTPAbstract.request "PATCH" (HTTPAbstract.prepare_url url params) fields
    headers

/-- The query mapping a server reads off a dispatched URL:
`dict(parse_qsl(urlparse(url).query))`. -/
def queryDict (url : String) : StrDict :=
  pyDict (parseQsl (urlparseL url.data).query)

/-- A dict whose keys and values use only unescaped-safe characters, whose
values are nonempty, and whose keys are distinct: the domain on which the
plus/space model of percent-quoting is exact. -/
def qdictOK (d : StrDict) : Prop :=
  (∀ kv ∈ d, kv.1.data.all qsafeChar = true ∧ kv.2.data.all qsafeChar = true
    ∧ kv.2 ≠ "") ∧ (d.map Prod.fst).Nodup

instance (d : StrDict) : Decidable (qdictOK d) := by
  unfold qdictOK
  infer_instance

/-! ### UTF-8 decoding (`bytes.decode`)

`bytes.decode('utf-8')` (strict) and `bytes.decode('utf-8',
errors='replace')` are modelled through one pass `utf8DecodeR` that yields
the replace-mode characters together with an error flag; strict decoding
succeeds exactly when the flag stays false, which also makes the two modes
agree whenever strict decoding succeeds. -/

/-- A UTF-8 continuation byte. -/
def utf8Cont (b : Nat) : Bool := 128 ≤ b && b ≤ 191

/-- The replacement character U+FFFD. -/
def replChar : Char := Char.ofNat 65533

/-- Decode a byte list as UTF-8 (RFC 3629: overlong forms and surrogates
rejected), emitting U+FFFD for each maximal malformed subpart and flagging
whether any error occurred.  Fuel-indexed so the definition reduces in the
kernel; every step consumes at least one byte, so fuel equal to the length
never runs out. -/
def utf8DecodeRAux : Nat → List Nat → List Char × Bool
  | _, [] => ([], false)
  | 0, _ :: _ => ([], false)
  | fuel + 1, b :: rest =>
      if b < 128 then
        let (cs, e) := utf8DecodeRAux fuel rest
        (Char.ofNat b :: cs, e)
      else if 194 ≤ b && b ≤ 223 then
        match rest with
        | b2 :: r2 =>
            if utf8Cont b2 then
              let (cs, e) := utf8DecodeRAux fuel r2
              (Char.ofNat ((b - 192) * 64 + (b2 - 128)) :: cs, e)
            else
              let (cs, _) := utf8DecodeRAux fuel (b2 :: r2)
              (replChar :: cs, true)
        | [] => ([replChar], true)
      else if 224 ≤ b && b ≤ 239 then
        let lo2 := if b = 224 then 160 else 128
        let hi2 := if b = 237 then 159 else 191
        match rest with
        | b2 :: r2 =>
            if lo2 ≤ b2 && b2 ≤ hi2 then
              match r2 with
              | b3 :: r3 =>
                  if utf8Cont b3 then
                    let (cs, e) := utf8DecodeRAux fuel r3
                    (Char.ofNat ((b - 224) * 4096 + (b2 - 128) * 64 +
                      (b3 - 128)) :: cs, e)
                  else
                    let (cs, _) := utf8DecodeRAux fuel (b3 :: r3)
                    (replChar :: cs, true)
              | [] => ([replChar], true)
            else
              let (cs, _) := utf8DecodeRAux fuel (b2 :: r2)
              (replChar :: cs, true)
        | [] => ([replChar], true)
      else if 240 ≤ b && b ≤ 244 then
        let lo2 := if b = 240 then 144 else 128
        let hi2 := if b = 244 then 143 else 191
        match rest with
        | b2 :: r2 =>
            if lo2 ≤ b2 && b2 ≤ hi2 then
              match r2 with
              | b3 :: r3 =>
                  if utf8Cont b3 then
                    match r3 with
                    | b4 :: r4 =>
                        if utf8Cont b4 then
                          let (cs, e) := utf8DecodeRAux fuel r4
                          (Char.ofNat ((b - 240) * 262144 +
                            (b2 - 128) * 4096 + (b3 - 128) * 64 +
                            (b4 - 128)) :: cs, e)
                        else
                          let (cs, _) := utf8DecodeRAux fuel (b4 :: r4)
                          (replChar :: cs, true)
                    | [] => ([replChar], true)
                  else
                    let (cs, _) := utf8DecodeRAux fuel (b3 :: r3)
                    (replChar :: cs, true)
              | [] => ([replChar], true)
            else
              let (cs, _) := utf8DecodeRAux fuel (b2 :: r2)
              (replChar :: cs, true)
        | [] => ([replChar], true)
      else
        let (cs, _) := utf8DecodeRAux fuel rest
        (replChar :: cs, true)

/-- The two decode modes in one pass: replace-mode characters plus an
error flag. -/
def utf8DecodeR (l : List Nat) : List Char × Bool :=
  utf8DecodeRAux l.length l

/-- `bytes.decode('utf-8', errors='replace')`: total. -/
def utf8Replace (l : List Nat) : String := String.mk (utf8DecodeR l).1

/-- `bytes.decode('utf-8')` (strict): `none` models `UnicodeDecodeError`. -/
def utf8DecodeQ (l : List Nat) : Option String :=
  if (utf8DecodeR l).2 then none else some (String.mk (utf8DecodeR l).1)

/-! ### JSON values (`json.loads` / `json.dumps(..., indent=2)`)

The stdlib JSON codec is modelled on documents whose numbers are integers
(floating point is out of scope) and whose strings contain no escape
sequences (no `"` or backslash in string content; `json.dumps` with its
default `ensure_ascii` escaping is modelled as the identity on such
strings). -/

mutual
inductive JVal : Type
  | null : JVal
  | bool (b : Bool) : JVal
  | int (n : Int) : JVal
  | str (s : String) : JVal
  | arr (xs : JArr) : JVal
  | obj (kvs : JObj) : JVal
inductive JArr : Type
  | nil : JArr
  | cons (hd : JVal) (tl : JArr) : JArr
inductive JObj : Type
  | nil : JObj
  | cons (k : String) (v : JVal) (tl : JObj) : JObj
end

/-- The left brace character (written by code point to keep string literals
brace-free). -/
def lbraceChar : Char := Char.ofNat 123

/-- The right brace character. -/
def rbraceChar : Char := Char.ofNat 125

/-- The backslash character. -/
def bslashChar : Char := Char.ofNat 92

/-- The single-quote character. -/
def squoteChar : Char := Char.ofNat 39

/-- Decimal digit character. -/
def digitChar (d : Nat) : Char := Char.ofNat (48 + d)

/-- Decimal rendering of a natural number (no leading zeros). -/
def natToChars (n : Nat) : List Char :=
  if h : n < 10 then [digitChar n]
  else natToChars (n / 10) ++ [digitChar (n % 10)]
decreasing_by
  exact Nat.div_lt_self (by omega) (by omega)

/-- Python `repr` of an int. -/
def intToChars : Int → List Char
  | .ofNat n => natToChars n
  | .negSucc m => '-' :: natToChars (m + 1)

/-- `n` spaces (the `indent=2` padding). -/
def spacesL (n : Nat) : List Char := List.replicate n ' '

mutual
/-- `json.dumps(v, indent=2)` at indentation level `ind` (characters). -/
def jdump (ind : Nat) : JVal → List Char
  | .null => 'n' :: ['u', 'l', 'l']
  | .bool true => 't' :: ['r', 'u', 'e']
  | .bool false => 'f' :: ['a', 'l', 's', 'e']
  | .int n => intToChars n
  | .str s => '"' :: (s.data ++ ['"'])
  | .arr .nil => ['[', ']']
  | .arr (.cons x t) =>
      '[' :: '\n' :: (spacesL (ind + 2) ++ (jdumpArr (ind + 2) x t ++
        ('\n' :: (spacesL ind ++ [']']))))
  | .obj .nil => [lbraceChar, rbraceChar]
  | .obj (.cons k v t) =>
      lbraceChar :: '\n' :: (spacesL (ind + 2) ++ (jdumpObj (ind + 2) k v t ++
        ('\n' :: (spacesL ind ++ [rbraceChar]))))
termination_by v => sizeOf v
decreasing_by all_goals (simp_wf <;> omega)
/-- The comma-and-newline separated element list of an array. -/
def jdumpArr (ind : Nat) (x : JVal) : JArr → List Char
  | .nil => jdump ind x
  | .cons y t =>
      jdump ind x ++ (',' :: '\n' :: (spacesL ind ++ jdumpArr ind y t))
termination_by t => sizeOf x + sizeOf t
decreasing_by all_goals (simp_wf <;> omega)
/-- The comma-and-newline separated member list of an object
(`": "` key separator). -/
def jdumpObj (ind : Nat) (k : String) (v : JVal) : JObj → List Char
  | .nil => '"' :: (k.data ++ ('"' :: ':' :: ' ' :: jdump ind v))
  | .cons k2 v2 t =>
      '"' :: (k.data ++ ('"' :: ':' :: ' ' :: jdump ind v)) ++
        (',' :: '\n' :: (spacesL ind ++ jdumpObj ind k2 v2 t))
termination_by t => sizeOf v + sizeOf t
decreasing_by all_goals (simp_wf <;> omega)
end

/-- `json.dumps(v, indent=2)`. -/
def jsonDumps2 (v : JVal) : String := String.mk (jdump 0 v)

/-- JSON whitespace. -/
def jsonWs (c : Char) : Bool := c = ' ' || c = '\n' || c = '\t' || c = '\r'

/-- Skip whitespace. -/
def skipWs (l : List Char) : List Char := l.dropWhile jsonWs

/-- String body scanning up to the closing quote; escape sequences are
outside the modelled domain (`none`). -/
def parseStrBody : List Char → Option (List Char × List Char)
  | [] => none
  | c :: cs =>
      if c = '"' then some ([], cs)
      else if c = bslashChar then none
      else
        match parseStrBody cs with
        | some (a, b) => some (c :: a, b)
        | none => none

/-- Greedy digit run with accumulator. -/
def parseDigits (acc : Nat) : List Char → Nat × List Char
  | [] => (acc, [])
  | c :: cs =>
      if c.isDigit then parseDigits (acc * 10 + (c.toNat - 48)) cs
      else (acc, c :: cs)

/-- Integer literal (`-?(0|[1-9][0-9]*)`, the JSON number grammar with the
fraction/exponent parts outside the modelled integer domain). -/
def parseIntL : List Char → Option (Int × List Char)
  | [] => none
  | c :: cs =>
      if c = '-' then
        match cs with
        | d :: cs2 =>
            if d = '0' then some (0, cs2)
            else if d.isDigit then
              let (n, r) := parseDigits 0 (d :: cs2)
              some (-(n : Int), r)
            else none
        | [] => none
      else if c = '0' then some (0, cs)
      else if c.isDigit then
        let (n, r) := parseDigits 0 (c :: cs)
        some ((n : Int), r)
      else none

mutual
/-- Recursive-descent JSON value parsing (fuel-indexed; each nesting step
consumes at least one input character, so `length + 1` fuel never runs
out on inputs the stdlib accepts). -/
def parseVal : Nat → List Char → Option (JVal × List Char)
  | 0, _ => none
  | fuel + 1, cs =>
      match skipWs cs with
      | [] => none
      | c :: cs' =>
          if c = 'n' then
            match cs' with
            | 'u' :: 'l' :: 'l' :: r => some (.null, r)
            | _ => none
          else if c = 't' then
            match cs' with
            | 'r' :: 'u' :: 'e' :: r => some (.bool true, r)
            | _ => none
          else if c = 'f' then
            match cs' with
            | 'a' :: 'l' :: 's' :: 'e' :: r => some (.bool false, r)
            | _ => none
          else if c = '"' then
            match parseStrBody cs' with
            | some (a, r) => some (.str (String.mk a), r)
            | none => none
          else if c = '[' then
            match skipWs cs' with
            | [] => none
            | c2 :: r2 =>
                if c2 = ']' then some (.arr .nil, r2)
                else
                  match parseElems fuel (c2 :: r2) with
                  | some (xs, r3) => some (.arr xs, r3)
                  | none => none
          else if c = lbraceChar then
            match skipWs cs' with
            | [] => none
            | c2 :: r2 =>
                if c2 = rbraceChar then some (.obj .nil, r2)
                else
                  match parseMembers fuel (c2 :: r2) with
                  | some (kvs, r3) => some (.obj kvs, r3)
                  | none => none
          else
            match parseIntL (c :: cs') with
            | some (n, r) => some (.int n, r)
            | none => none
/-- One-or-more array elements up to the closing bracket. -/
def parseElems : Nat → List Char → Option (JArr × List Char)
  | 0, _ => none
  | fuel + 1, cs =>
      match parseVal fuel cs with
      | some (v, r) =>
          match skipWs r with
          | [] => none
          | c3 :: r3 =>
              if c3 = ',' then
                match parseElems fuel r3 with
                | some (xs, r4) => some (.cons v xs, r4)
                | none => none
              else if c3 = ']' then some (.cons v .nil, r3)
              else none
      | none => none
/-- One-or-more object members up to the closing brace. -/
def parseMembers : Nat → List Char → Option (JObj × List Char)
  | 0, _ => none
  | fuel + 1, cs =>
      match skipWs cs with
      | [] => none
      | c :: cs' =>
          if c = '"' then
            match parseStrBody cs' with
            | some (k, r) =>
                match skipWs r with
                | ':' :: r3 =>
                    match parseVal fuel r3 with
                    | some (v, r4) =>
                        match skipWs r4 with
                        | [] => none
                        | c5 :: r5 =>
                            if c5 = ',' then
                              match parseMembers fuel r5 with
                              | some (kvs, r6) =>
                                  some (.cons (String.mk k) v kvs, r6)
                              | none => none
                            else if c5 = rbraceChar then
                              some (.cons (String.mk k) v .nil, r5)
                            else none
                    | none => none
                | _ => none
            | none => none
          else none
end

/-- `json.loads`: parse one value and require only whitespace after it. -/
def jsonLoads (s : String) : Option JVal :=
  match parseVal (s.data.length + 1) s.data with
  | some (v, rest) => if (skipWs rest).isEmpty then some v else none
  | none => none

/-! ### The wizard's response decoding (`HttpRequestWizard.make_request`) -/

/-- Python `pat in l` on character lists: contiguous substring. -/
def pyInL (pat : List Char) : List Char → Bool
  | [] => pat.isEmpty
  | c :: cs => pat.isPrefixOf (c :: cs) || pyInL pat cs

/-- Python `needle in hay` on strings. -/
def pyIn (needle hay : String) : Bool := pyInL needle.data hay.data

/-- Python `s.strip(chars)`. -/
def stripChars (cset : List Char) (s : List Char) : List Char :=
  ((s.dropWhile (fun c => cset.contains c)).reverse.dropWhile
    (fun c => cset.contains c)).reverse

/-- First occurrence of a (nonempty) substring: Python
`s.split(pat, 1)` when the pattern occurs. -/
def splitOnceSub (pat : List Char) : List Char → Option (List Char × List Char)
  | [] => none
  | c :: cs =>
      if pat.isPrefixOf (c :: cs) then some ([], (c :: cs).drop pat.length)
      else
        match splitOnceSub pat cs with
        | some (a, b) => some (c :: a, b)
        | none => none

/-- `mimetypes.guess_extension`, modelled for the content types exercised
here (a subset of the stdlib table). -/
def guessExtension (ct : String) : Option String :=
  if ct = "application/octet-stream" then some ".bin"
  else if ct = "image/png" then some ".png"
  else if ct = "image/jpeg" then some ".jpg"
  else if ct = "audio/mpeg" then some ".mp3"
  else if ct = "video/mp4" then some ".mp4"
  else none

/-- The binary branch's filename choice: `Content-Disposition`'s
`filename=` token when present (quotes stripped), else an extension
guessed from the content type's main part, else none, on the generic name
`response`. -/
def binFilename (cd ct : String) : String :=
  if pyIn "filename=" cd then
    match splitOnceSub "filename=".data cd.data with
    | some (_, after) => String.mk (stripChars ['"', squoteChar] after)
    | none => "response"
  else
    let main := String.mk (stripChars [' ']
      ((splitEvery ';' ct.data).headD []))
    match guessExtension main with
    | some ext => "response" ++ ext
    | none => "response"

/-- The typed payload a decoded response populates (which response field
gets set); `binaryP` carries the raw bytes (the field stores them
base64-encoded) and the filename. -/
inductive Payload : Type
  | binaryP (data : List Nat) (filename : String) : Payload
  | jsonP (text : String) : Payload
  | htmlP (text : String) : Payload
  | textP (text : String) : Payload
deriving DecidableEq

/-- Python string truthiness (`if content_type:`). -/
def pyTruthy (s : String) : Bool := !s.data.isEmpty

/-- The content-type dispatch of `make_request` (lines 149-203), as run
inside the wizard's `try`: an `.error` is an exception escaping to the
outer handler (only the strict decode in the `application/json` branch can
raise — its `except` catches `json.JSONDecodeError` alone).  In the
`else`/no-content-type text fallbacks the source wraps
`data.decode('utf-8', errors='replace')` in `try/except UnicodeDecodeError`
with a binary fallback, but replace-mode decoding is total (it never
raises), so those `except` arms are unreachable and the fallbacks are
modelled by the total `utf8Replace`. -/
def processContent (ct cd : String) (data : List Nat) :
    Except String Payload :=
  if pyTruthy ct then
    if pyIn "application/octet-stream" ct || pyIn "image/" ct ||
        pyIn "audio/" ct || pyIn "video/" ct then
      .ok (.binaryP data (binFilename cd ct))
    else if pyIn "application/json" ct then
      match utf8DecodeQ data with
      | none => .error "UnicodeDecodeError"
      | some s =>
          match jsonLoads s with
          | some v => .ok (.jsonP (jsonDumps2 v))
          | none => .ok (.textP (utf8Replace data))
    else if pyIn "text/html" ct then .ok (.htmlP (utf8Replace data))
    else if pyIn "text/" ct then .ok (.textP (utf8Replace data))
    else .ok (.textP (utf8Replace data))
  else
    match utf8DecodeQ data with
    | some s =>
        match jsonLoads s with
        | some v => .ok (.jsonP (jsonDumps2 v))
        | none => .ok (.textP (utf8Replace data))
    | none => .ok (.textP (utf8Replace data))

/-- The wizard's outer `except Exception`: an escaping exception is
rendered into the text field as `f"Error: {str(e)}"`. -/
def makeRequestDecode (ct cd : String) (data : List Nat) : Payload :=
  match processContent ct cd data with
  | .ok p => p
  | .error m => .textP ("Error: " ++ m)

/-- String content free of the quote and backslash characters: the domain
on which the model of `json.dumps` string escaping (the identity) is
exact. -/
def strOkB (s : String) : Bool :=
  s.data.all (fun c => !(c = '"' || c = bslashChar))

mutual
/-- Node count of a JSON value (a fuel bound for the parser). -/
def jsize : JVal → Nat
  | .arr xs => jsizeA xs + 1
  | .obj kvs => jsizeO kvs + 1
  | _ => 1
/-- Node count of an array's elements. -/
def jsizeA : JArr → Nat
  | .nil => 0
  | .cons x t => jsize x + jsizeA t + 1
/-- Node count of an object's members. -/
def jsizeO : JObj → Nat
  | .nil => 0
  | .cons _ v t => jsize v + jsizeO t + 1
end

mutual
/-- Well-formed for the modelled codec: every string is escape-free. -/
def jwf : JVal → Bool
  | .str s => strOkB s
  | .arr xs => jwfA xs
  | .obj kvs => jwfO kvs
  | _ => true
/-- `jwf` on array elements. -/
def jwfA : JArr → Bool
  | .nil => true
  | .cons x t => jwf x && jwfA t
/-- `jwf` on object members. -/
def jwfO : JObj → Bool
  | .nil => true
  | .cons k v t => strOkB k && jwf v && jwfO t
end

/-! ## Theorems -/

/-! ### Association-list lemmas -/

theorem dictGet_pyUpsert_self {α : Type} (d : List (String × α)) (k : String)
    (v : α) : dictGet (pyUpsert d k v) k = some v := by
  induction d with
  | nil => simp [pyUpsert, dictGet]
  | cons hd t ih =>
      by_cases h : hd.1 = k
      · simp [pyUpsert, h, dictGet]
      · simp only [pyUpsert]
        rw [if_neg h]
        simpa [dictGet, List.find?, h] using ih

theorem dictGet_pyUpsert_ne {α : Type} (d : List (String × α))
    (k k' : String) (v : α) (h : k' ≠ k) :
    dictGet (pyUpsert d k v) k' = dictGet d k' := by
  induction d with
  | nil => simp [pyUpsert, dictGet, List.find?, Ne.symm h]
  | cons hd t ih =>
      by_cases hh : hd.1 = k
      · simp only [pyUpsert, if_pos hh]
        subst hh
        simp [dictGet, List.find?, Ne.symm h]
      · simp only [pyUpsert, if_neg hh]
        by_cases hk' : hd.1 = k'
        · simp [dictGet, List.find?, hk']
        · simpa [dictGet, List.find?, hk'] using ih

theorem containsKey_eq_isSome {α : Type} (d : List (String × α))
    (k : String) : containsKey d k = (dictGet d k).isSome := by
  induction d with
  | nil => rfl
  | cons hd t ih =>
      by_cases hhd : hd.1 = k
      · simp [containsKey, dictGet, List.find?, hhd]
      · simpa [containsKey, dictGet, List.find?, hhd] using ih

theorem pyUpsert_eq_of_dictGet {α : Type} (d : List (String × α))
    (k : String) (v : α) (h : dictGet d k = some v) : pyUpsert d k v = d := by
  induction d with
  | nil => simp [dictGet] at h
  | cons hd t ih =>
      obtain ⟨k', v'⟩ := hd
      by_cases hhd : k' = k
      · subst hhd
        have hv : v' = v := by simpa [dictGet, List.find?] using h
        subst hv
        simp [pyUpsert]
      · have h' : dictGet t k = some v := by
          simpa [dictGet, List.find?, hhd] using h
        simp [pyUpsert, hhd, ih h']

theorem dictGet_pyDictUpdate {α : Type} (a b : List (String × α)) (k : String)
    (hb : (b.map Prod.fst).Nodup) :
    dictGet (pyDictUpdate a b) k =
      (dictGet b k).elim (dictGet a k) some := by
  induction b generalizing a with
  | nil => simp [pyDictUpdate, dictGet]
  | cons hd t ih =>
      have hnd : (t.map Prod.fst).Nodup := (List.nodup_cons.mp hb).2
      have hni : hd.1 ∉ t.map Prod.fst := (List.nodup_cons.mp hb).1
      have step : pyDictUpdate a (hd :: t) =
          pyDictUpdate (pyUpsert a hd.1 hd.2) t := by
        simp [pyDictUpdate]
      rw [step, ih _ hnd]
      by_cases hk : hd.1 = k
      · subst hk
        have ht : dictGet t hd.1 = none := by
          cases hfind : t.find? (fun kv => kv.1 = hd.1) with
          | none => simp [dictGet, hfind]
          | some kv =>
              exfalso
              have := List.find?_some hfind
              have hmem := List.mem_of_find?_eq_some hfind
              have : kv.1 = hd.1 := by simpa using this
              exact hni (this ▸ List.mem_map_of_mem Prod.fst hmem)
        rw [ht]
        have hcons : dictGet (hd :: t) hd.1 = some hd.2 := by
          simp [dictGet, List.find?]
        rw [hcons, dictGet_pyUpsert_self]
        rfl
      · have hgb : dictGet (hd :: t) k = dictGet t k := by
          simp [dictGet, List.find?, hk]
        rw [hgb, dictGet_pyUpsert_ne _ _ _ _ (fun h => hk h.symm)]

/-! ### Claims on the connection cache -/

/-- C5: obtaining the connection twice for the same identity without an
intervening close returns the same connection object; when nothing is cached
the first lookup invokes the factory and stores the result, and the second
lookup serves the cached object without invoking the factory again. -/
theorem getConnection_caching (st : CacheState) (name : String)
    (h : cachedConn st name = none) :
    (HTTPAbstract.getConnection st name).2.2 = true ∧
    cachedConn (HTTPAbstract.getConnection st name).2.1 name =
      some (HTTPAbstract.getConnection st name).1 ∧
    (HTTPAbstract.getConnection
        (HTTPAbstract.getConnection st name).2.1 name).1 =
      (HTTPAbstract.getConnection st name).1 ∧
    (HTTPAbstract.getConnection
        (HTTPAbstract.getConnection st name).2.1 name).2.2 = false := by
  have hcached :
      cachedConn ⟨pyUpsert st.cache name (some st.nextId), st.nextId + 1⟩ name
        = some st.nextId := by
    unfold cachedConn
    show (dictGet (pyUpsert st.cache name (some st.nextId)) name).join =
      some st.nextId
    rw [dictGet_pyUpsert_self]
    rfl
  refine ⟨?_, ?_, ?_, ?_⟩ <;>
    simp [HTTPAbstract.getConnection, h, hcached]

/-- Witness for `getConnection_caching` at the empty cache. -/
theorem getConnection_caching_witness :
    cachedConn ⟨[], 0⟩ "http.abstract" = none ∧
    (HTTPAbstract.getConnection
        (HTTPAbstract.getConnection ⟨[], 0⟩ "http.abstract").2.1
        "http.abstract").1 =
      (HTTPAbstract.getConnection ⟨[], 0⟩ "http.abstract").1 :=
  ⟨by decide, (getConnection_caching ⟨[], 0⟩ "http.abstract"
      (by decide)).2.2.1⟩

/-- C1 counterexample: with a cached connection whose underlying transport
`close()` raises, `HTTPAbstract.close` raises and does NOT evict the cache
entry — the old connection object is still cached and a subsequent lookup
returns it, contradicting the claim that eviction is unconditional. -/
theorem close_failure_keeps_entry :
    (HTTPAbstract.close (fun _ => false) ⟨[("http.abstract", some 7)], 8⟩
        "http.abstract").res =
      .error "Error closing connection for http.abstract" ∧
    (HTTPAbstract.close (fun _ => false) ⟨[("http.abstract", some 7)], 8⟩
        "http.abstract").st = ⟨[("http.abstract", some 7)], 8⟩ ∧
    cachedConn (HTTPAbstract.close (fun _ => false)
        ⟨[("http.abstract", some 7)], 8⟩ "http.abstract").st
        "http.abstract" = some 7 ∧
    (HTTPAbstract.getConnection (HTTPAbstract.close (fun _ => false)
        ⟨[("http.abstract", some 7)], 8⟩ "http.abstract").st
        "http.abstract").1 = 7 := by
  refine ⟨rfl, rfl, rfl, rfl⟩

/-- C1 amended: `close` on an identity with a cached connection evicts the
entry exactly when the underlying transport close succeeds; when the
underlying close raises, the wrapped `HTTPClientError` propagates before the
eviction statement, the entry keeps the old connection and a subsequent
lookup returns the old connection object. -/
theorem close_evicts_iff_close_succeeds (closeOk : Nat → Bool)
    (st : CacheState) (name : String) (c : Nat)
    (h : cachedConn st name = some c) :
    (closeOk c = true →
      (HTTPAbstract.close closeOk st name).res = .ok () ∧
      cachedConn (HTTPAbstract.close closeOk st name).st name = none) ∧
    (closeOk c = false →
      (HTTPAbstract.close closeOk st name).res =
        .error ("Error closing connection for " ++ name) ∧
      (HTTPAbstract.close closeOk st name).st = st ∧
      (HTTPAbstract.getConnection
          (HTTPAbstract.close closeOk st name).st name).1 = c) := by
  have hkey : containsKey st.cache name = true := by
    rw [containsKey_eq_isSome]
    unfold cachedConn at h
    cases hg : dictGet st.cache name with
    | none => rw [hg] at h; exact absurd h (by simp)
    | some v => rfl
  have hsel : (if containsKey st.cache name then pyUpsert st.cache name none
      else st.cache) = pyUpsert st.cache name none := by
    rw [hkey]
    exact if_pos rfl
  have hclear : cachedConn (clearCacheEntry st name) name = none := by
    unfold cachedConn clearCacheEntry
    show (dictGet (if containsKey st.cache name then
        pyUpsert st.cache name none else st.cache) name).join = none
    rw [hsel, dictGet_pyUpsert_self]
    rfl
  constructor
  · intro hok
    constructor
    · simp [HTTPAbstract.close, h, hok]
    · simp [HTTPAbstract.close, h, hok, hclear]
  · intro hfail
    refine ⟨?_, ?_, ?_⟩
    · simp [HTTPAbstract.close, h, hfail]
    · simp [HTTPAbstract.close, h, hfail]
    · simp [HTTPAbstract.close, h, hfail, HTTPAbstract.getConnection]

/-- Witness for `close_evicts_iff_close_succeeds` on a concrete cache. -/
theorem close_evicts_iff_close_succeeds_witness :
    cachedConn ⟨[("svc", some 3)], 4⟩ "svc" = some 3 ∧
    ((fun _ => true : Nat → Bool) 3 = true →
      (HTTPAbstract.close (fun _ => true) ⟨[("svc", some 3)], 4⟩ "svc").res
        = .ok () ∧
      cachedConn (HTTPAbstract.close (fun _ => true)
          ⟨[("svc", some 3)], 4⟩ "svc").st "svc" = none) :=
  ⟨by decide,
   (close_evicts_iff_close_succeeds (fun _ => true) ⟨[("svc", some 3)], 4⟩
      "svc" 3 (by decide)).1⟩

/-- C10: `close` when no connection is cached (the entry is absent or `None`)
raises no error, invokes no underlying transport close, and leaves the cache
state unchanged — in particular the served connection for that identity is
still `None` and an immediately repeated `close` behaves identically. -/
theorem close_idempotent_when_uncached (closeOk : Nat → Bool)
    (st : CacheState) (name : String) (h : cachedConn st name = none) :
    (HTTPAbstract.close closeOk st name).res = .ok () ∧
    (HTTPAbstract.close closeOk st name).closedCalls = [] ∧
    (HTTPAbstract.close closeOk st name).st = st ∧
    cachedConn (HTTPAbstract.close closeOk st name).st name = none := by
  have hstable : (if containsKey st.cache name then
      pyUpsert st.cache name none else st.cache) = st.cache := by
    cases hg : dictGet st.cache name with
    | none =>
        have hkey : containsKey st.cache name = false := by
          rw [containsKey_eq_isSome, hg]; rfl
        rw [hkey]; rfl
    | some v =>
        cases v with
        | none =>
            have hkey : containsKey st.cache name = true := by
              rw [containsKey_eq_isSome, hg]; rfl
            rw [hkey]
            simp only [if_pos]
            exact pyUpsert_eq_of_dictGet _ _ _ hg
        | some c =>
            exfalso
            unfold cachedConn at h
            rw [hg] at h
            exact Option.noConfusion h
  have hclear : clearCacheEntry st name = st := by
    unfold clearCacheEntry
    rw [hstable]
  have hrun : HTTPAbstract.close closeOk st name = ⟨.ok (), st, []⟩ := by
    unfold HTTPAbstract.close
    rw [h, hclear]
  rw [hrun]
  exact ⟨rfl, rfl, rfl, h⟩

/-- Witness for `close_idempotent_when_uncached` on a cache whose entry was
already set to `None` by a previous close. -/
theorem close_idempotent_when_uncached_witness :
    cachedConn ⟨[("svc", none)], 5⟩ "svc" = none ∧
    (HTTPAbstract.close (fun _ => true) ⟨[("svc", none)], 5⟩ "svc").res
      = .ok () ∧
    (HTTPAbstract.close (fun _ => true) ⟨[("svc", none)], 5⟩
        "svc").closedCalls = [] ∧
    (HTTPAbstract.close (fun _ => true) ⟨[("svc", none)], 5⟩ "svc").st
      = ⟨[("svc", none)], 5⟩ :=
  ⟨by decide,
   (close_idempotent_when_uncached (fun _ => true) ⟨[("svc", none)], 5⟩
      "svc" (by decide)).1,
   (close_idempotent_when_uncached (fun _ => true) ⟨[("svc", none)], 5⟩
      "svc" (by decide)).2.1,
   (close_idempotent_when_uncached (fun _ => true) ⟨[("svc", none)], 5⟩
      "svc" (by decide)).2.2.1⟩

/-! ### Claim on default options (C8) -/

/-- C8: the effective connection options are the identity overrides merged
over the defaults; each default (timeout = transport default, maxsize = 1,
retries = None, block = False, headers = None) applies exactly when the key
is unset in the overrides, any set key keeps its override value, and the
pool-manager facade additionally defaults `num_pools` to 10 when unset. -/
theorem getOptions_defaults (o : List (String × OptVal))
    (hnd : (o.map Prod.fst).Nodup) :
    (dictGet o "timeout" = none →
      dictGet (HTTPAbstract.getOptions o) "timeout" = some .timeoutDefault) ∧
    (dictGet o "maxsize" = none →
      dictGet (HTTPAbstract.getOptions o) "maxsize" = some (.natV 1)) ∧
    (dictGet o "retries" = none →
      dictGet (HTTPAbstract.getOptions o) "retries" = some .noneV) ∧
    (dictGet o "block" = none →
      dictGet (HTTPAbstract.getOptions o) "block" = some (.boolV false)) ∧
    (dictGet o "headers" = none →
      dictGet (HTTPAbstract.getOptions o) "headers" = some .noneV) ∧
    (∀ k v, dictGet o k = some v →
      dictGet (HTTPAbstract.getOptions o) k = some v) ∧
    (dictGet o "num_pools" = none →
      dictGet (PoolManagerAbstract.initOptions o) "num_pools"
        = some (.natV 10)) ∧
    (∀ v, dictGet o "num_pools" = some v →
      dictGet (PoolManagerAbstract.initOptions o) "num_pools" = some v) := by
  have hmerge : ∀ k, dictGet (HTTPAbstract.getOptions o) k =
      (dictGet o k).elim (dictGet defaultOptions k) some :=
    fun k => dictGet_pyDictUpdate defaultOptions o k hnd
  refine ⟨?_, ?_, ?_, ?_, ?_, ?_, ?_, ?_⟩
  · intro h; rw [hmerge "timeout", h]; rfl
  · intro h; rw [hmerge "maxsize", h]; rfl
  · intro h; rw [hmerge "retries", h]; rfl
  · intro h; rw [hmerge "block", h]; rfl
  · intro h; rw [hmerge "headers", h]; rfl
  · intro k v h; rw [hmerge k, h]; rfl
  · intro h
    have hopt : dictGet (HTTPAbstract.getOptions o) "num_pools" = none := by
      rw [hmerge "num_pools", h]; rfl
    have hck : containsKey (HTTPAbstract.getOptions o) "num_pools"
        = false := by
      rw [containsKey_eq_isSome, hopt]; rfl
    unfold PoolManagerAbstract.initOptions
    rw [hck, if_neg (by simp), dictGet_pyUpsert_self]
  · intro v h
    have hopt : dictGet (HTTPAbstract.getOptions o) "num_pools" = some v := by
      rw [hmerge "num_pools", h]; rfl
    have hck : containsKey (HTTPAbstract.getOptions o) "num_pools"
        = true := by
      rw [containsKey_eq_isSome, hopt]; rfl
    unfold PoolManagerAbstract.initOptions
    rw [hck, if_pos rfl, hopt]

/-- Witness for `getOptions_defaults` at a concrete override dict with a
set `timeout` and everything else unset. -/
theorem getOptions_defaults_witness :
    (([("timeout", OptVal.natV 30)].map Prod.fst).Nodup ∧
      dictGet [("timeout", OptVal.natV 30)] "maxsize" = none) ∧
    dictGet (HTTPAbstract.getOptions [("timeout", OptVal.natV 30)]) "maxsize"
      = some (.natV 1) ∧
    dictGet (PoolManagerAbstract.initOptions [("timeout", OptVal.natV 30)])
      "num_pools" = some (.natV 10) :=
  ⟨⟨by decide, by decide⟩,
   (getOptions_defaults [("timeout", OptVal.natV 30)] (by decide)).2.1
     (by decide),
   (getOptions_defaults [("timeout", OptVal.natV 30)] (by decide)).2.2.2.2.2.2.1
     (by decide)⟩

/-! ### Claim on exception classification (C4) -/

/-- C4: every exception raised by the transport during the request or the
connection-init phase is re-raised as exactly one wrapped domain error whose
kind (message) is chosen by ordered first-match over the handler's rule
list, with unrecognized exceptions falling to the Unexpected catch-all, and
the wrapped error always retains the original exception as its cause. -/
theorem handlers_classify_first_match (e : PyExc) (method url : String) :
    HTTPAbstract.handleRequestExceptions method url e =
      mkWrapped (classifyFirstMatch (requestRules method url)
        ("Unexpected error for " ++ method ++ " " ++ url) e) e ∧
    (HTTPAbstract.handleRequestExceptions method url e).originalError
      = some e ∧
    HTTPAbstract.handleConnectionExceptions e =
      mkWrapped (classifyFirstMatch connectionRules "Unexpected error" e) e ∧
    (HTTPAbstract.handleConnectionExceptions e).originalError = some e := by
  cases e <;> exact ⟨rfl, rfl, rfl, rfl⟩

/-! ### Claims on verb dispatch (C6, C9) -/

/-- C9: a `request` call with `headers=None` dispatches to the underlying
connection with `headers` still `None`; the accept-encoding default header
value built internally is discarded and never attached. -/
theorem request_discards_default_headers (method url : String)
    (fields : Option StrDict) :
    (HTTPAbstract.request method url fields none).headers = none ∧
    (HTTPAbstract.request method url fields none).headers
      ≠ some (make_headers true) := by
  exact ⟨rfl, by simp [HTTPAbstract.request]⟩

/-- C6: each of GET, DELETE, HEAD, OPTIONS and TRACE passes truthy `params`
as the verb's native query `fields`: with no `fields` the dispatched fields
are exactly `params`, with both given they are merged into `fields` with
`params` overriding, and every binding of `params` is contained in the
dispatched native query. -/
theorem query_verbs_pass_params_as_fields (url : String) (f p : StrDict)
    (h : Option StrDict) (hp : p ≠ [])
    (hnd : (p.map Prod.fst).Nodup) :
    ((HTTPAbstract.get url none h (some p)).fields = some p ∧
      (HTTPAbstract.get url (some f) h (some p)).fields
        = some (pyDictUpdate f p)) ∧
    ((HTTPAbstract.delete url none h (some p)).fields = some p ∧
      (HTTPAbstract.delete url (some f) h (some p)).fields
        = some (pyDictUpdate f p)) ∧
    ((HTTPAbstract.head url none h (some p)).fields = some p ∧
      (HTTPAbstract.head url (some f) h (some p)).fields
        = some (pyDictUpdate f p)) ∧
    ((HTTPAbstract.options url none h (some p)).fields = some p ∧
      (HTTPAbstract.options url (some f) h (some p)).fields
        = some (pyDictUpdate f p)) ∧
    ((HTTPAbstract.trace url none h (some p)).fields = some p ∧
      (HTTPAbstract.trace url (some f) h (some p)).fields
        = some (pyDictUpdate f p)) ∧
    (∀ k v, dictGet p k = some v → dictGet (pyDictUpdate f p) k = some v) := by
  have hpe : p.isEmpty = false := by
    cases p with
    | nil => exact absurd rfl hp
    | cons a t => rfl
  refine ⟨⟨?_, ?_⟩, ⟨?_, ?_⟩, ⟨?_, ?_⟩, ⟨?_, ?_⟩, ⟨?_, ?_⟩, ?_⟩ <;>
    first
      | simp [HTTPAbstract.get, HTTPAbstract.delete, HTTPAbstract.head,
          HTTPAbstract.options, HTTPAbstract.trace, HTTPAbstract.request,
          mergeParamsIntoFields, hpe]
      | (intro k v hkv
         rw [dictGet_pyDictUpdate f p k hnd, hkv]
         rfl)

/-- Witness for `query_verbs_pass_params_as_fields` at `params={a:1}` and
`fields={b:2}`. -/
theorem query_verbs_pass_params_as_fields_witness :
    (([("a", "1")] : StrDict) ≠ [] ∧
      (([("a", "1")] : StrDict).map Prod.fst).Nodup) ∧
    (HTTPAbstract.get "https://h/p" none none (some [("a", "1")])).fields
      = some [("a", "1")] ∧
    dictGet (pyDictUpdate [("b", "2")] [("a", "1")]) "a" = some "1" :=
  ⟨⟨by decide, by decide⟩,
   (query_verbs_pass_params_as_fields "https://h/p" [("b", "2")] [("a", "1")]
      none (by decide) (by decide)).1.1,
   (query_verbs_pass_params_as_fields "https://h/p" [("b", "2")] [("a", "1")]
      none (by decide) (by decide)).2.2.2.2.2 "a" "1" (by decide)⟩

/-! ### URL model lemmas -/

theorem splitOnceChar_not_mem (sep : Char) (l : List Char) (h : sep ∉ l) :
    splitOnceChar sep l = none := by
  induction l with
  | nil => rfl
  | cons c cs ih =>
      rw [List.mem_cons, not_or] at h
      have hc : c ≠ sep := fun e => h.1 e.symm
      simp [splitOnceChar, hc, ih h.2]

theorem splitOnceChar_append (sep : Char) (l₁ l₂ : List Char)
    (h : sep ∉ l₁) : splitOnceChar sep (l₁ ++ sep :: l₂) = some (l₁, l₂) := by
  induction l₁ with
  | nil => simp [splitOnceChar]
  | cons c cs ih =>
      rw [List.mem_cons, not_or] at h
      have hc : c ≠ sep := fun e => h.1 e.symm
      simp [splitOnceChar, hc, ih h.2]

theorem takeUntilAny_append (stop : Char → Bool) (l₁ : List Char) (c₀ : Char)
    (l₂ : List Char) (h : ∀ c ∈ l₁, stop c = false)
    (hc : stop c₀ = true) :
    takeUntilAny stop (l₁ ++ c₀ :: l₂) = (l₁, c₀ :: l₂) := by
  induction l₁ with
  | nil => simp [takeUntilAny, hc]
  | cons c cs ih =>
      have h1 : stop c = false := h c (List.mem_cons_self c cs)
      simp [takeUntilAny, h1,
        ih (fun x hx => h x (List.mem_cons_of_mem c hx))]

theorem splitEveryAux_not_mem (sep : Char) (l acc : List Char)
    (h : sep ∉ l) : splitEveryAux sep l acc = [acc.reverse ++ l] := by
  induction l generalizing acc with
  | nil => simp [splitEveryAux]
  | cons c cs ih =>
      rw [List.mem_cons, not_or] at h
      have hc : c ≠ sep := fun e => h.1 e.symm
      simp [splitEveryAux, hc, ih _ h.2]

theorem splitEveryAux_append (sep : Char) (l₁ rest acc : List Char)
    (h : sep ∉ l₁) :
    splitEveryAux sep (l₁ ++ sep :: rest) acc =
      (acc.reverse ++ l₁) :: splitEveryAux sep rest [] := by
  induction l₁ generalizing acc with
  | nil => simp [splitEveryAux]
  | cons c cs ih =>
      rw [List.mem_cons, not_or] at h
      have hc : c ≠ sep := fun e => h.1 e.symm
      simp [splitEveryAux, hc, ih _ h.2]

theorem splitEvery_join (sep : Char) (pieces : List (List Char))
    (hne : pieces ≠ []) (h : ∀ x ∈ pieces, sep ∉ x) :
    splitEvery sep (joinWithChar sep pieces) = pieces := by
  induction pieces with
  | nil => exact absurd rfl hne
  | cons x xs ih =>
      cases xs with
      | nil =>
          have hx : sep ∉ x := h x (List.mem_cons_self x [])
          simp [splitEvery, joinWithChar, splitEveryAux_not_mem sep x [] hx]
      | cons y ys =>
          have hx : sep ∉ x := h x (List.mem_cons_self x (y :: ys))
          have step : joinWithChar sep (x :: y :: ys) =
              x ++ sep :: joinWithChar sep (y :: ys) := rfl
          rw [splitEvery, step, splitEveryAux_append sep x _ [] hx]
          have := ih (by simp)
            (fun z hz => h z (List.mem_cons_of_mem x hz))
          rw [splitEvery] at this
          rw [this]
          simp

theorem unquotePlus_quotePlus (l : List Char) (h : l.all qsafeChar = true) :
    unquotePlus (quotePlus l) = l := by
  induction l with
  | nil => rfl
  | cons c cs ih =>
      rw [List.all_cons, Bool.and_eq_true] at h
      have hplus : c ≠ '+' := by
        intro e
        rw [e] at h
        exact absurd h.1 (by decide)
      unfold quotePlus unquotePlus at *
      simp only [List.map_cons, List.map_map] at *
      by_cases hsp : c = ' '
      · subst hsp
        simpa using ih h.2
      · simp only [if_neg hsp, List.map_cons, if_neg hplus]
        simpa using ih h.2

theorem mem_quotePlus (l : List Char) (c₀ : Char) (hmem : c₀ ∈ quotePlus l)
    (h : l.all qsafeChar = true) :
    (qsafeChar c₀ = true ∧ c₀ ≠ ' ') ∨ c₀ = '+' := by
  unfold quotePlus at hmem
  rw [List.mem_map] at hmem
  obtain ⟨c, hc, he⟩ := hmem
  rw [List.all_eq_true] at h
  by_cases hsp : c = ' '
  · right; rw [← he, hsp]; rfl
  · left
    constructor
    · rw [← he, if_neg hsp]; exact h c hc
    · rw [← he, if_neg hsp]; exact hsp

theorem not_mem_quotePlus (l : List Char) (c₀ : Char)
    (h : l.all qsafeChar = true) (h1 : qsafeChar c₀ = false)
    (h2 : c₀ ≠ '+') : c₀ ∉ quotePlus l := by
  intro hmem
  rcases mem_quotePlus l c₀ hmem h with hq | hp
  · rw [hq.1] at h1; exact absurd h1 (by simp)
  · exact h2 hp

theorem quotePlus_nil_iff (l : List Char) : quotePlus l = [] ↔ l = [] := by
  unfold quotePlus
  simp

theorem mem_joinWithChar (sep : Char) (pieces : List (List Char)) (c : Char)
    (h : c ∈ joinWithChar sep pieces) :
    c = sep ∨ ∃ x ∈ pieces, c ∈ x := by
  induction pieces with
  | nil => simp [joinWithChar] at h
  | cons x xs ih =>
      cases xs with
      | nil =>
          right
          exact ⟨x, List.mem_cons_self x [], by simpa [joinWithChar] using h⟩
      | cons y ys =>
          have hj : joinWithChar sep (x :: y :: ys) =
              x ++ sep :: joinWithChar sep (y :: ys) := rfl
          rw [hj, List.mem_append, List.mem_cons] at h
          rcases h with hx | hs | hrest
          · exact Or.inr ⟨x, List.mem_cons_self x _, hx⟩
          · exact Or.inl hs
          · rcases ih hrest with hsep | ⟨z, hz, hcz⟩
            · exact Or.inl hsep
            · exact Or.inr ⟨z, List.mem_cons_of_mem x hz, hcz⟩

theorem mem_urlencodeL (d : StrDict) (c : Char) (h : c ∈ urlencodeL d)
    (hd : ∀ kv ∈ d, kv.1.data.all qsafeChar = true ∧
      kv.2.data.all qsafeChar = true ∧ kv.2 ≠ "") :
    qsChar c = true := by
  unfold urlencodeL at h
  rcases mem_joinWithChar '&' _ c h with hs | ⟨x, hx, hcx⟩
  · rw [hs]; rfl
  · rw [List.mem_map] at hx
    obtain ⟨kv, hkv, he⟩ := hx
    rw [← he, List.mem_append, List.mem_cons] at hcx
    have hsafe := hd kv hkv
    have qs_of_qsafe : ∀ c', (qsafeChar c' = true ∧ c' ≠ ' ') ∨ c' = '+' →
        qsChar c' = true := by
      intro c' hc'
      rcases hc' with ⟨hq, hsp⟩ | hp
      · unfold qsafeChar at hq
        unfold qsChar
        simp only [Bool.or_eq_true] at hq ⊢
        rcases hq with ((((h' | h') | h') | h') | h') | h'
        · exact Or.inl (Or.inl (Or.inl (Or.inl (Or.inl (Or.inl (Or.inl h'))))))
        · exact Or.inl (Or.inl (Or.inl (Or.inl (Or.inl (Or.inl (Or.inr h'))))))
        · exact Or.inl (Or.inl (Or.inl (Or.inl (Or.inl (Or.inr h')))))
        · exact Or.inl (Or.inl (Or.inl (Or.inl (Or.inr h'))))
        · exact Or.inl (Or.inl (Or.inl (Or.inr h')))
        · exact absurd (by simpa using h') hsp
      · rw [hp]; rfl
    rcases hcx with h1 | h2 | h3
    · exact qs_of_qsafe c (mem_quotePlus _ c h1 hsafe.1)
    · rw [h2]; rfl
    · exact qs_of_qsafe c (mem_quotePlus _ c h3 hsafe.2.1)

theorem string_data_ne_nil (s : String) (h : s ≠ "") : s.data ≠ [] := by
  intro e
  apply h
  cases s with
  | mk l => cases e; rfl

theorem qsl_foldr_map (d : StrDict)
    (hd : ∀ kv ∈ d, kv.1.data.all qsafeChar = true ∧
      kv.2.data.all qsafeChar = true ∧ kv.2 ≠ "") :
    (d.map (fun kv => quotePlus kv.1.data ++ '=' :: quotePlus kv.2.data)).foldr
      (fun pair acc =>
        if pair.isEmpty then acc
        else
          match splitOnceChar '=' pair with
          | some (n, v) =>
              if v.isEmpty then acc
              else (String.mk (unquotePlus n), String.mk (unquotePlus v)) :: acc
          | none => acc) [] = d := by
  induction d with
  | nil => rfl
  | cons kv t ih =>
      obtain ⟨hk, hv, hvne⟩ := hd kv (List.mem_cons_self kv t)
      have hsplit : splitOnceChar '='
          (quotePlus kv.1.data ++ '=' :: quotePlus kv.2.data)
          = some (quotePlus kv.1.data, quotePlus kv.2.data) :=
        splitOnceChar_append '=' _ _
          (not_mem_quotePlus _ _ hk (by decide) (by decide))
      have hpe : (quotePlus kv.1.data ++ '=' :: quotePlus kv.2.data).isEmpty
          = false := by
        cases h0 : quotePlus kv.1.data <;> simp [h0]
      have hve : (quotePlus kv.2.data).isEmpty = false := by
        have : kv.2.data ≠ [] := string_data_ne_nil kv.2 hvne
        rw [List.isEmpty_eq_false]
        intro e
        exact this ((quotePlus_nil_iff kv.2.data).mp e)
      rw [List.map_cons, List.foldr_cons]
      rw [ih (fun kv2 h2 => hd kv2 (List.mem_cons_of_mem kv h2))]
      rw [hpe]
      simp only [Bool.false_eq_true, if_false, hsplit, hve,
        unquotePlus_quotePlus kv.1.data hk,
        unquotePlus_quotePlus kv.2.data hv]

theorem parseQsl_urlencodeL (d : StrDict)
    (hd : ∀ kv ∈ d, kv.1.data.all qsafeChar = true ∧
      kv.2.data.all qsafeChar = true ∧ kv.2 ≠ "") :
    parseQsl (urlencodeL d) = d := by
  cases d with
  | nil => rfl
  | cons kv0 t0 =>
      unfold parseQsl urlencodeL
      rw [splitEvery_join '&' _ (by simp) ?pieces]
      case pieces =>
        intro x hx
        rw [List.mem_map] at hx
        obtain ⟨kv, hkv, he⟩ := hx
        obtain ⟨hk, hv, _⟩ := hd kv hkv
        rw [← he]
        intro hmem
        rw [List.mem_append, List.mem_cons] at hmem
        rcases hmem with h1 | h2 | h3
        · exact not_mem_quotePlus _ _ hk (by decide) (by decide) h1
        · exact absurd h2 (by decide)
        · exact not_mem_quotePlus _ _ hv (by decide) (by decide) h3
      exact qsl_foldr_map (kv0 :: t0) hd

theorem pyUpsert_ne_nil {α : Type} (d : List (String × α)) (k : String)
    (v : α) : pyUpsert d k v ≠ [] := by
  cases d with
  | nil => simp [pyUpsert]
  | cons hd t =>
      obtain ⟨k', v'⟩ := hd
      by_cases h : k' = k <;> simp [pyUpsert, h]

theorem pyDictUpdate_ne_nil {α : Type} :
    ∀ (b a : List (String × α)), b ≠ [] → pyDictUpdate a b ≠ [] := by
  intro b
  induction b with
  | nil => intro a hb; exact absurd rfl hb
  | cons kv t ih =>
      intro a _
      cases t with
      | nil =>
          have step : pyDictUpdate a [kv] = pyUpsert a kv.1 kv.2 := rfl
          rw [step]
          exact pyUpsert_ne_nil a kv.1 kv.2
      | cons kv2 t2 =>
          have step : pyDictUpdate a (kv :: kv2 :: t2) =
              pyDictUpdate (pyUpsert a kv.1 kv.2) (kv2 :: t2) := rfl
          rw [step]
          exact ih _ (by simp)

theorem containsKey_cons {α : Type} (hd : String × α) (t : List (String × α))
    (k : String) :
    containsKey (hd :: t) k = (decide (hd.1 = k) || containsKey t k) := by
  simp [containsKey]

theorem containsKey_append {α : Type} (a b : List (String × α)) (k : String) :
    containsKey (a ++ b) k = (containsKey a k || containsKey b k) := by
  simp [containsKey, List.any_append]

theorem containsKey_eq_false_iff {α : Type} (d : List (String × α))
    (k : String) : containsKey d k = false ↔ k ∉ d.map Prod.fst := by
  rw [containsKey, List.any_eq_false]
  constructor
  · intro h hmem
    rw [List.mem_map] at hmem
    obtain ⟨kv, hkv, he⟩ := hmem
    exact h kv hkv (by simpa using he)
  · intro h kv hkv hkeq
    have he : kv.1 = k := of_decide_eq_true hkeq
    exact h (he ▸ List.mem_map_of_mem Prod.fst hkv)

theorem pyUpsert_append_of_not_contains {α : Type} (d : List (String × α))
    (k : String) (v : α) (h : containsKey d k = false) :
    pyUpsert d k v = d ++ [(k, v)] := by
  induction d with
  | nil => rfl
  | cons hd t ih =>
      rw [containsKey_cons, Bool.or_eq_false_iff] at h
      have hh : ¬ hd.1 = k := by simpa using h.1
      simp [pyUpsert, hh, ih h.2]

theorem keys_pyUpsert_of_contains {α : Type} (d : List (String × α))
    (k : String) (v : α) (h : containsKey d k = true) :
    (pyUpsert d k v).map Prod.fst = d.map Prod.fst := by
  induction d with
  | nil => simp [containsKey] at h
  | cons hd t ih =>
      by_cases hh : hd.1 = k
      · simp [pyUpsert, hh]
      · have ht : containsKey t k = true := by
          rw [containsKey_cons] at h
          simpa [hh] using h
        simp [pyUpsert, hh, ih ht]

theorem nodup_keys_pyUpsert {α : Type} (d : List (String × α)) (k : String)
    (v : α) (h : (d.map Prod.fst).Nodup) :
    ((pyUpsert d k v).map Prod.fst).Nodup := by
  cases hc : containsKey d k with
  | true => rw [keys_pyUpsert_of_contains d k v hc]; exact h
  | false =>
      rw [pyUpsert_append_of_not_contains d k v hc, List.map_append]
      have hk : k ∉ d.map Prod.fst := (containsKey_eq_false_iff d k).mp hc
      simp [List.nodup_append, h, hk]

theorem nodup_keys_pyDictUpdate {α : Type} :
    ∀ (b a : List (String × α)), (a.map Prod.fst).Nodup →
      ((pyDictUpdate a b).map Prod.fst).Nodup := by
  intro b
  induction b with
  | nil => intro a h; exact h
  | cons kv t ih =>
      intro a h
      exact ih _ (nodup_keys_pyUpsert a kv.1 kv.2 h)

theorem pyDictUpdate_eq_append {α : Type} :
    ∀ (b a : List (String × α)),
      (∀ k ∈ b.map Prod.fst, containsKey a k = false) →
      (b.map Prod.fst).Nodup → pyDictUpdate a b = a ++ b := by
  intro b
  induction b with
  | nil => intro a _ _; simp [pyDictUpdate]
  | cons kv t ih =>
      intro a hdisj hnd
      have h0 : containsKey a kv.1 = false := hdisj kv.1 (by simp)
      have step : pyDictUpdate a (kv :: t) =
          pyDictUpdate (pyUpsert a kv.1 kv.2) t := rfl
      rw [step, pyUpsert_append_of_not_contains a kv.1 kv.2 h0]
      have hknotin : kv.1 ∉ t.map Prod.fst := by
        rw [List.map_cons, List.nodup_cons] at hnd
        exact hnd.1
      have hnd' : (t.map Prod.fst).Nodup := by
        rw [List.map_cons, List.nodup_cons] at hnd
        exact hnd.2
      have hdisj' : ∀ k ∈ t.map Prod.fst,
          containsKey (a ++ [(kv.1, kv.2)]) k = false := by
        intro k hk
        rw [containsKey_append, Bool.or_eq_false_iff]
        refine ⟨hdisj k (List.mem_cons_of_mem _ hk), ?_⟩
        have : kv.1 ≠ k := fun e => hknotin (e ▸ hk)
        simp [containsKey, this]
      rw [ih _ hdisj' hnd', List.append_assoc]
      rfl

theorem pyDict_self {α : Type} (d : List (String × α))
    (h : (d.map Prod.fst).Nodup) : pyDict d = d := by
  unfold pyDict
  rw [pyDictUpdate_eq_append d [] (fun k _ => rfl) h]
  rfl

theorem mem_pyUpsert {α : Type} (d : List (String × α)) (k : String) (v : α)
    (kv : String × α) (h : kv ∈ pyUpsert d k v) : kv ∈ d ∨ kv = (k, v) := by
  induction d with
  | nil => simp [pyUpsert] at h; exact Or.inr h
  | cons hd t ih =>
      by_cases hh : hd.1 = k
      · rw [show pyUpsert (hd :: t) k v = (k, v) :: t by
          simp [pyUpsert, hh]] at h
        rcases List.mem_cons.mp h with h1 | h2
        · exact Or.inr h1
        · exact Or.inl (List.mem_cons_of_mem hd h2)
      · rw [show pyUpsert (hd :: t) k v = hd :: pyUpsert t k v by
          simp [pyUpsert, hh]] at h
        rcases List.mem_cons.mp h with h1 | h2
        · exact Or.inl (h1 ▸ List.mem_cons_self hd t)
        · rcases ih h2 with h3 | h4
          · exact Or.inl (List.mem_cons_of_mem hd h3)
          · exact Or.inr h4

theorem mem_pyDictUpdate {α : Type} :
    ∀ (b a : List (String × α)) (kv : String × α),
      kv ∈ pyDictUpdate a b → kv ∈ a ∨ kv ∈ b := by
  intro b
  induction b with
  | nil => intro a kv h; exact Or.inl h
  | cons kv0 t ih =>
      intro a kv h
      have step : pyDictUpdate a (kv0 :: t) =
          pyDictUpdate (pyUpsert a kv0.1 kv0.2) t := rfl
      rw [step] at h
      rcases ih _ kv h with h1 | h2
      · rcases mem_pyUpsert a kv0.1 kv0.2 kv h1 with h3 | h4
        · exact Or.inl h3
        · right
          rw [h4]
          exact List.mem_cons_self kv0 t
      · exact Or.inr (List.mem_cons_of_mem kv0 h2)

theorem urlparse_std (host pathRest q : List Char)
    (hhc : ∀ c ∈ host, ¬(c = '/' ∨ c = '?' ∨ c = '#'))
    (hpc : ∀ c ∈ pathRest, ¬(c = '?' ∨ c = '#' ∨ c = ';'))
    (hqc : ∀ c ∈ q, c ≠ '#') :
    urlparseL ('h' :: 't' :: 't' :: 'p' :: 's' :: ':' :: '/' :: '/' ::
        (host ++ '/' :: (pathRest ++ '?' :: q))) =
      ⟨['h', 't', 't', 'p', 's'], host, '/' :: pathRest, [], q, []⟩ := by
  have hs : extractScheme ('h' :: 't' :: 't' :: 'p' :: 's' :: ':' :: '/' ::
      '/' :: (host ++ '/' :: (pathRest ++ '?' :: q))) =
      (['h', 't', 't', 'p', 's'],
        '/' :: '/' :: (host ++ '/' :: (pathRest ++ '?' :: q))) := rfl
  have hn : extractNetloc ('/' :: '/' :: (host ++ '/' ::
      (pathRest ++ '?' :: q))) = (host, '/' :: (pathRest ++ '?' :: q)) := by
    have harg : ∀ c ∈ host,
        (fun c => c = '/' || c = '?' || c = '#') c = false := by
      intro c hc
      have h3 := hhc c hc
      simp only [Bool.or_eq_false_iff, decide_eq_false_iff_not]
      exact ⟨⟨fun e => h3 (Or.inl e), fun e => h3 (Or.inr (Or.inl e))⟩,
        fun e => h3 (Or.inr (Or.inr e))⟩
    have : extractNetloc ('/' :: '/' :: (host ++ '/' ::
        (pathRest ++ '?' :: q))) =
        takeUntilAny (fun c => c = '/' || c = '?' || c = '#')
          (host ++ '/' :: (pathRest ++ '?' :: q)) := rfl
    rw [this, takeUntilAny_append _ host '/' _ harg (by decide)]
  have hf : splitSuffix '#' ('/' :: (pathRest ++ '?' :: q)) =
      ('/' :: (pathRest ++ '?' :: q), []) := by
    unfold splitSuffix
    rw [splitOnceChar_not_mem '#' _ ?hnm]
    case hnm =>
      intro hmem
      rcases List.mem_cons.mp hmem with h1 | h2
      · exact absurd h1 (by decide)
      · rw [List.mem_append, List.mem_cons] at h2
        rcases h2 with h3 | h4 | h5
        · exact hpc '#' h3 (Or.inr (Or.inl rfl))
        · exact absurd h4 (by decide)
        · exact hqc '#' h5 rfl
  have hq2 : splitSuffix '?' ('/' :: (pathRest ++ '?' :: q)) =
      ('/' :: pathRest, q) := by
    unfold splitSuffix
    have hshape : ('/' :: (pathRest ++ '?' :: q)) =
        ('/' :: pathRest) ++ '?' :: q := by simp
    rw [hshape, splitOnceChar_append '?' _ _ ?hnm]
    case hnm =>
      intro hmem
      rcases List.mem_cons.mp hmem with h1 | h2
      · exact absurd h1 (by decide)
      · exact hpc '?' h2 (Or.inl rfl)
  have hpp : splitParamsL ('/' :: pathRest) = ('/' :: pathRest, []) := by
    unfold splitParamsL
    have hany : ('/' :: pathRest).any (fun c => c = ';') = false := by
      rw [List.any_eq_false]
      intro c hc
      rcases List.mem_cons.mp hc with h1 | h2
      · rw [h1]; decide
      · simpa using fun e => hpc c h2 (Or.inr (Or.inr e))
    rw [hany]
    rfl
  simp only [urlparseL, hs, hn, hf, hq2, hpp]

theorem urlunparse_std (host pathRest q' : List Char) (hh : host ≠ [])
    (hq' : q' ≠ []) :
    urlunparseL ⟨['h', 't', 't', 'p', 's'], host, '/' :: pathRest, [], q', []⟩
      = 'h' :: 't' :: 't' :: 'p' :: 's' :: ':' :: '/' :: '/' ::
        (host ++ '/' :: (pathRest ++ '?' :: q')) := by
  have hhe : host.isEmpty = false := by
    rw [List.isEmpty_eq_false]; exact hh
  have hqe : q'.isEmpty = false := by
    rw [List.isEmpty_eq_false]; exact hq'
  simp only [urlunparseL, List.isEmpty_nil, hhe, hqe]
  simp [List.append_assoc]

theorem urlencodeL_ne_nil (d : StrDict) (hd : d ≠ []) :
    urlencodeL d ≠ [] := by
  cases d with
  | nil => exact absurd rfl hd
  | cons kv t =>
      unfold urlencodeL
      rw [List.map_cons]
      cases ht : (t.map (fun kv => quotePlus kv.1.data ++ '=' ::
          quotePlus kv.2.data)) with
      | nil =>
          show joinWithChar '&' [_] ≠ []
          unfold joinWithChar
          cases h0 : quotePlus kv.1.data <;> simp
      | cons x xs =>
          show joinWithChar '&' (_ :: x :: xs) ≠ []
          unfold joinWithChar
          cases h0 : quotePlus kv.1.data <;> simp

/-- C7: POST, PUT and PATCH merge truthy `params` into the URL's existing
query string before dispatch — for a URL `https://host/path?query`, the
dispatched URL's query mapping equals the union of the existing query
mapping with `params`, `params` overriding any duplicate key — and `fields`
are passed through unchanged, not used to carry the query. -/
theorem body_verbs_merge_params_into_url (host pathRest : List Char)
    (q₀ p : StrDict) (f hdrs : Option StrDict) (url : String)
    (hurl : url = String.mk ('h' :: 't' :: 't' :: 'p' :: 's' :: ':' :: '/' ::
      '/' :: (host ++ '/' :: (pathRest ++ '?' :: urlencodeL q₀))))
    (hh : host ≠ [])
    (hhc : ∀ c ∈ host, ¬(c = '/' ∨ c = '?' ∨ c = '#'))
    (hpc : ∀ c ∈ pathRest, ¬(c = '?' ∨ c = '#' ∨ c = ';'))
    (hq : qdictOK q₀) (hp : qdictOK p) (hpne : p ≠ []) :
    (queryDict (HTTPAbstract.post url f hdrs (some p)).url
        = pyDictUpdate q₀ p ∧
      (HTTPAbstract.post url f hdrs (some p)).fields = f) ∧
    (queryDict (HTTPAbstract.put url f hdrs (some p)).url
        = pyDictUpdate q₀ p ∧
      (HTTPAbstract.put url f hdrs (some p)).fields = f) ∧
    (queryDict (HTTPAbstract.patch url f hdrs (some p)).url
        = pyDictUpdate q₀ p ∧
      (HTTPAbstract.patch url f hdrs (some p)).fields = f) ∧
    (∀ k v, dictGet p k = some v →
      dictGet (pyDictUpdate q₀ p) k = some v) := by
  obtain ⟨hqent, hqnd⟩ := hq
  obtain ⟨hpent, hpnd⟩ := hp
  have hq0c : ∀ c ∈ urlencodeL q₀, c ≠ '#' := by
    intro c hc e
    have hqs := mem_urlencodeL q₀ c hc hqent
    rw [e] at hqs
    exact absurd hqs (by decide)
  have hparse : urlparseL url.data =
      ⟨['h', 't', 't', 'p', 's'], host, '/' :: pathRest, [],
        urlencodeL q₀, []⟩ := by
    rw [hurl]
    exact urlparse_std host pathRest _ hhc hpc hq0c
  have hmerge : pyDictUpdate (pyDict (parseQsl (urlencodeL q₀))) p =
      pyDictUpdate q₀ p := by
    rw [parseQsl_urlencodeL q₀ hqent, pyDict_self q₀ hqnd]
  have hMne : pyDictUpdate q₀ p ≠ [] := pyDictUpdate_ne_nil p q₀ hpne
  have hMent : ∀ kv ∈ pyDictUpdate q₀ p,
      kv.1.data.all qsafeChar = true ∧ kv.2.data.all qsafeChar = true ∧
        kv.2 ≠ "" := by
    intro kv hkv
    rcases mem_pyDictUpdate p q₀ kv hkv with h1 | h2
    · exact hqent kv h1
    · exact hpent kv h2
  have hMnd : ((pyDictUpdate q₀ p).map Prod.fst).Nodup :=
    nodup_keys_pyDictUpdate p q₀ hqnd
  have hMq : urlencodeL (pyDictUpdate q₀ p) ≠ [] :=
    urlencodeL_ne_nil _ hMne
  have hpe : p.isEmpty = false := by
    rw [List.isEmpty_eq_false]; exact hpne
  have hprep : HTTPAbstract.prepare_url url (some p) =
      String.mk ('h' :: 't' :: 't' :: 'p' :: 's' :: ':' :: '/' :: '/' ::
        (host ++ '/' :: (pathRest ++ '?' ::
          urlencodeL (pyDictUpdate q₀ p)))) := by
    simp only [HTTPAbstract.prepare_url, hpe, Bool.false_eq_true, if_false,
      hparse, hmerge,
      urlunparse_std host pathRest (urlencodeL (pyDictUpdate q₀ p)) hh hMq]
  have hMc : ∀ c ∈ urlencodeL (pyDictUpdate q₀ p), c ≠ '#' := by
    intro c hc e
    have hqs := mem_urlencodeL _ c hc hMent
    rw [e] at hqs
    exact absurd hqs (by decide)
  have hqd : queryDict (String.mk ('h' :: 't' :: 't' :: 'p' :: 's' :: ':' ::
      '/' :: '/' :: (host ++ '/' :: (pathRest ++ '?' ::
        urlencodeL (pyDictUpdate q₀ p))))) = pyDictUpdate q₀ p := by
    have hparse2 : urlparseL (String.mk ('h' :: 't' :: 't' :: 'p' :: 's' ::
        ':' :: '/' :: '/' :: (host ++ '/' :: (pathRest ++ '?' ::
          urlencodeL (pyDictUpdate q₀ p))))).data =
        ⟨['h', 't', 't', 'p', 's'], host, '/' :: pathRest, [],
          urlencodeL (pyDictUpdate q₀ p), []⟩ :=
      urlparse_std host pathRest _ hhc hpc hMc
    unfold queryDict
    rw [hparse2]
    rw [show (⟨['h', 't', 't', 'p', 's'], host, '/' :: pathRest, [],
        urlencodeL (pyDictUpdate q₀ p), []⟩ : UrlParts).query =
        urlencodeL (pyDictUpdate q₀ p) from rfl]
    rw [parseQsl_urlencodeL _ hMent, pyDict_self _ hMnd]
  refine ⟨⟨?_, rfl⟩, ⟨?_, rfl⟩, ⟨?_, rfl⟩, ?_⟩
  · rw [show (HTTPAbstract.post url f hdrs (some p)).url =
      HTTPAbstract.prepare_url url (some p) from rfl, hprep]
    exact hqd
  · rw [show (HTTPAbstract.put url f hdrs (some p)).url =
      HTTPAbstract.prepare_url url (some p) from rfl, hprep]
    exact hqd
  · rw [show (HTTPAbstract.patch url f hdrs (some p)).url =
      HTTPAbstract.prepare_url url (some p) from rfl, hprep]
    exact hqd
  · intro k v hkv
    rw [dictGet_pyDictUpdate q₀ p k hpnd, hkv]
    rfl

/-- Witness for `body_verbs_merge_params_into_url` at `params={a:1}` and
URL `https://h/p?b=2`: the dispatched query mapping is `{b:2, a:1}`. -/
theorem body_verbs_merge_params_into_url_witness :
    (qdictOK [("b", "2")] ∧ qdictOK [("a", "1")] ∧
      ([("a", "1")] : StrDict) ≠ []) ∧
    queryDict (HTTPAbstract.post "https://h/p?b=2" none none
        (some [("a", "1")])).url = [("b", "2"), ("a", "1")] ∧
    dictGet (queryDict (HTTPAbstract.post "https://h/p?b=2" none none
        (some [("a", "1")])).url) "a" = some "1" ∧
    dictGet (queryDict (HTTPAbstract.post "https://h/p?b=2" none none
        (some [("a", "1")])).url) "b" = some "2" := by
  have main := body_verbs_merge_params_into_url ['h'] ['p'] [("b", "2")]
    [("a", "1")] none none "https://h/p?b=2" (by decide) (by decide)
    (by decide) (by decide) (by decide) (by decide) (by decide)
  refine ⟨⟨by decide, by decide, by decide⟩, ?_, ?_, ?_⟩
  · rw [main.1.1]; decide
  · rw [main.1.1]; decide
  · rw [main.1.1]; decide

/-! ### Claim on the no-content-type fallback (C2) -/

/-- C2 (defect evidence): with no `Content-Type` the decoder tries JSON
first — the body `123,34,120,34,58,49,125` (the bytes of an `x:1` object)
yields a Json payload — but the non-UTF8 body `[255]` yields a Text payload
holding U+FFFD rather than a Binary payload with generated filename
`response`: `bytes.decode('utf-8', errors='replace')` never raises, so the
`except UnicodeDecodeError` arm guarding the binary fallback is dead
code. -/
theorem decode_no_content_type_eval :
    makeRequestDecode "" "" [123, 34, 120, 34, 58, 49, 125]
      = .jsonP (jsonDumps2 (JVal.obj (JObj.cons "x" (JVal.int 1)
          JObj.nil))) ∧
    makeRequestDecode "" "" [255] = .textP "�" ∧
    (∀ d fn, makeRequestDecode "" "" [255] ≠ .binaryP d fn) := by
  refine ⟨rfl, rfl, ?_⟩
  intro d fn h
  rw [show makeRequestDecode "" "" [255] = .textP "�" from rfl] at h
  exact Payload.noConfusion h

/-! ### JSON codec lemmas (towards C3) -/

theorem utf8Replace_of_decodeQ (l : List Nat) (s : String)
    (h : utf8DecodeQ l = some s) : utf8Replace l = s := by
  unfold utf8DecodeQ at h
  by_cases hf : (utf8DecodeR l).2
  · rw [if_pos hf] at h
    exact Option.noConfusion h
  · rw [if_neg hf] at h
    unfold utf8Replace
    exact Option.some.inj h

theorem parseStrBody_append (s r : List Char)
    (hs : s.all (fun c => !(c = '"' || c = bslashChar)) = true) :
    parseStrBody (s ++ '"' :: r) = some (s, r) := by
  induction s with
  | nil => simp [parseStrBody]
  | cons c cs ih =>
      rw [List.all_cons, Bool.and_eq_true] at hs
      have h1 : c ≠ '"' := by
        intro e; rw [e] at hs; exact absurd hs.1 (by decide)
      have h2 : c ≠ bslashChar := by
        intro e; rw [e] at hs; exact absurd hs.1 (by decide)
      simp [parseStrBody, h1, h2, ih hs.2]

theorem parseStrBody_ok : ∀ (cs a r : List Char),
    parseStrBody cs = some (a, r) →
    a.all (fun c => !(c = '"' || c = bslashChar)) = true := by
  intro cs
  induction cs with
  | nil => intro a r h; exact absurd h (by simp [parseStrBody])
  | cons c cs ih =>
      intro a r h
      unfold parseStrBody at h
      by_cases h1 : c = '"'
      · rw [if_pos h1] at h
        have := (Prod.mk.injEq _ _ _ _).mp (Option.some.inj h)
        rw [← this.1]
        rfl
      · rw [if_neg h1] at h
        by_cases h2 : c = bslashChar
        · rw [if_pos h2] at h
          exact Option.noConfusion h
        · rw [if_neg h2] at h
          cases hp : parseStrBody cs with
          | none => rw [hp] at h; exact Option.noConfusion h
          | some pr =>
              obtain ⟨a', r'⟩ := pr
              rw [hp] at h
              have := (Prod.mk.injEq _ _ _ _).mp (Option.some.inj h)
              rw [← this.1, List.all_cons, Bool.and_eq_true]
              have hrec := ih a' r' hp
              exact ⟨by simp [h1, h2], hrec⟩

theorem digitChar_facts (d : Nat) (h : d < 10) :
    (digitChar d).isDigit = true ∧ (digitChar d).toNat - 48 = d ∧
    jsonWs (digitChar d) = false ∧ digitChar d ≠ 'n' ∧ digitChar d ≠ 't' ∧
    digitChar d ≠ 'f' ∧ digitChar d ≠ '"' ∧ digitChar d ≠ '[' ∧
    digitChar d ≠ lbraceChar ∧ digitChar d ≠ '-' ∧
    (digitChar d = '0' ↔ d = 0) ∧ digitChar d ≠ ']' ∧
    digitChar d ≠ rbraceChar := by
  interval_cases d <;> exact (by decide)

theorem natToChars_shape : ∀ n : Nat, ∃ d t, d < 10 ∧ (n ≠ 0 → d ≠ 0) ∧
    natToChars n = digitChar d :: t := by
  intro n
  induction n using Nat.strong_induction_on with
  | _ n ih =>
      by_cases h : n < 10
      · refine ⟨n, [], h, fun hn => hn, ?_⟩
        rw [natToChars]
        simp [h]
      · have hdiv : n / 10 < n := Nat.div_lt_self (by omega) (by omega)
        obtain ⟨d, t, hd, hd0, he⟩ := ih (n / 10) hdiv
        refine ⟨d, t ++ [digitChar (n % 10)], hd, ?_, ?_⟩
        · intro _
          exact hd0 (by omega)
        · rw [natToChars]
          simp [h, he]

theorem parseDigits_stop (acc : Nat) (rest : List Char)
    (h : ∀ c, rest.head? = some c → c.isDigit = false) :
    parseDigits acc rest = (acc, rest) := by
  cases rest with
  | nil => rfl
  | cons c cs =>
      have hc : c.isDigit = false := h c rfl
      simp [parseDigits, hc]

theorem parseDigits_chain : ∀ (n acc : Nat) (rest : List Char),
    parseDigits acc (natToChars n ++ rest) =
      parseDigits (acc * 10 ^ (natToChars n).length + n) rest := by
  intro n
  induction n using Nat.strong_induction_on with
  | _ n ih =>
      intro acc rest
      by_cases h : n < 10
      · rw [natToChars]
        simp only [h, dif_pos]
        obtain ⟨hdig, hval, -⟩ := digitChar_facts n h
        simp only [List.cons_append, List.nil_append, parseDigits, hdig,
          if_true, hval, List.length_cons, List.length_nil, pow_one]
        rfl
      · have hdiv : n / 10 < n := Nat.div_lt_self (by omega) (by omega)
        have hm : n % 10 < 10 := Nat.mod_lt _ (by omega)
        obtain ⟨hdig, hval, -⟩ := digitChar_facts (n % 10) hm
        rw [natToChars]
        simp only [h, dif_neg, not_false_eq_true]
        rw [List.append_assoc, List.singleton_append, ih (n / 10) hdiv]
        simp only [parseDigits, hdig, eq_self_iff_true, if_true, hval,
          List.length_append, List.length_singleton]
        have hsplit : 10 * (n / 10) + n % 10 = n := Nat.div_add_mod n 10
        have hstep : (acc * 10 ^ (natToChars (n / 10)).length + n / 10) * 10
            + n % 10 = acc * (10 ^ (natToChars (n / 10)).length * 10) +
              (10 * (n / 10) + n % 10) := by ring
        rw [hstep, hsplit, ← pow_succ]

theorem parseIntL_complete (n : Int) (rest : List Char)
    (h : ∀ c, rest.head? = some c → c.isDigit = false) :
    parseIntL (intToChars n ++ rest) = some (n, rest) := by
  cases n with
  | ofNat m =>
      show parseIntL (natToChars m ++ rest) = some (Int.ofNat m, rest)
      by_cases hm : m = 0
      · subst hm
        have h00 : natToChars 0 = ['0'] := by
          rw [natToChars]
          rfl
        rw [h00, List.cons_append]
        simp only [parseIntL]
        rfl
      · obtain ⟨d, t, hd, hd0, he⟩ := natToChars_shape m
        obtain ⟨hdig, hval, hws, hn, ht', hf, hq, hbr, hlb, hminus, h0iff,
          hrb, hrb2⟩ := digitChar_facts d hd
        have hchain := parseDigits_chain m 0 rest
        have hstop := parseDigits_stop m rest h
        simp only [zero_mul, zero_add] at hchain
        have h0ne : ¬ digitChar d = '0' := fun e => (hd0 hm) (h0iff.mp e)
        rw [he, List.cons_append]
        simp only [parseIntL]
        rw [if_neg hminus, if_neg h0ne, if_pos hdig]
        rw [← List.cons_append, ← he, hchain, hstop]
        rfl
  | negSucc m =>
      show parseIntL (('-' :: natToChars (m + 1)) ++ rest)
        = some (Int.negSucc m, rest)
      obtain ⟨d, t, hd, hd0, he⟩ := natToChars_shape (m + 1)
      obtain ⟨hdig, hval, hws, hn, ht', hf, hq, hbr, hlb, hminus, h0iff,
        hrb, hrb2⟩ := digitChar_facts d hd
      have hchain := parseDigits_chain (m + 1) 0 rest
      have hstop := parseDigits_stop (m + 1) rest h
      simp only [zero_mul, zero_add] at hchain
      have h0ne : ¬ digitChar d = '0' := fun e =>
        (hd0 (by omega)) (h0iff.mp e)
      rw [List.cons_append, he, List.cons_append]
      simp only [parseIntL]
      rw [if_neg h0ne, if_pos hdig]
      rw [← List.cons_append, ← he, hchain, hstop]
      show some (-(((m + 1 : Nat) : Int)), rest) = some (Int.negSucc m, rest)
      rw [show -(((m + 1 : Nat) : Int)) = Int.negSucc m from by
        rw [Int.negSucc_eq]
        push_cast
        ring]
theorem skipWs_append_ws (ws l : List Char) (h : ws.all jsonWs = true) :
    skipWs (ws ++ l) = skipWs l := by
  induction ws with
  | nil => rfl
  | cons c cs ih =>
      rw [List.all_cons, Bool.and_eq_true] at h
      unfold skipWs
      rw [List.cons_append, List.dropWhile_cons_of_pos h.1]
      exact ih h.2

theorem skipWs_cons_not_ws (c : Char) (l : List Char)
    (h : jsonWs c = false) : skipWs (c :: l) = c :: l := by
  unfold skipWs
  rw [List.dropWhile_cons_of_neg (by simp [h])]

theorem spacesL_all_ws (n : Nat) : (spacesL n).all jsonWs = true := by
  rw [List.all_eq_true]
  intro c hc
  rw [List.eq_of_mem_replicate hc]
  rfl

theorem ws_not_digit (c : Char) (h : jsonWs c = true) : c.isDigit = false := by
  unfold jsonWs at h
  have : ((c = ' ' ∨ c = '\n') ∨ c = '\t') ∨ c = '\r' := by simpa using h
  rcases this with ((h | h) | h) | h <;> (rw [h]; decide)

theorem head_not_digit_ws_close (ws2 rest : List Char) (cl : Char)
    (h : ws2.all jsonWs = true) (hcl : cl.isDigit = false) :
    ∀ c, (ws2 ++ cl :: rest).head? = some c → c.isDigit = false := by
  intro c hc
  cases ws2 with
  | nil =>
      simp at hc
      rw [← hc]
      exact hcl
  | cons w ws =>
      rw [List.all_cons, Bool.and_eq_true] at h
      simp at hc
      rw [← hc]
      exact ws_not_digit w h.1

theorem jdump_head (v : JVal) (ind : Nat) : ∃ c t, jdump ind v = c :: t ∧
    jsonWs c = false ∧ c ≠ ']' ∧ c ≠ rbraceChar := by
  cases v with
  | null => exact ⟨'n', ['u', 'l', 'l'], by rw [jdump], by decide, by decide,
      by decide⟩
  | bool b =>
      cases b with
      | true => exact ⟨'t', ['r', 'u', 'e'], by rw [jdump], by decide,
          by decide, by decide⟩
      | false => exact ⟨'f', ['a', 'l', 's', 'e'], by rw [jdump], by decide,
          by decide, by decide⟩
  | str s => exact ⟨'"', s.data ++ ['"'], by rw [jdump], by decide,
      by decide, by decide⟩
  | int n =>
      cases n with
      | ofNat m =>
          obtain ⟨d, t, hd, hd0, he⟩ := natToChars_shape m
          obtain ⟨hdig, hval, hws, hn, ht', hf, hq, hbr, hlb, hminus, h0iff,
            hrb, hrb2⟩ := digitChar_facts d hd
          exact ⟨digitChar d, t, by rw [jdump]; exact he, hws, hrb, hrb2⟩
      | negSucc m =>
          exact ⟨'-', natToChars (m + 1), by rw [jdump]; rfl, by decide,
            by decide, by decide⟩
  | arr xs =>
      cases xs with
      | nil => exact ⟨'[', [']'], by rw [jdump], by decide, by decide,
          by decide⟩
      | cons x t =>
          exact ⟨'[', '\n' :: (spacesL (ind + 2) ++ (jdumpArr (ind + 2) x t ++
            ('\n' :: (spacesL ind ++ [']'])))), by rw [jdump], by decide,
            by decide, by decide⟩
  | obj kvs =>
      cases kvs with
      | nil => exact ⟨lbraceChar, [rbraceChar], by rw [jdump], by decide,
          by decide, by decide⟩
      | cons k v t =>
          exact ⟨lbraceChar, '\n' :: (spacesL (ind + 2) ++
            (jdumpObj (ind + 2) k v t ++ ('\n' :: (spacesL ind ++
              [rbraceChar])))), by rw [jdump], by decide, by decide,
            by decide⟩

theorem jsize_pos (v : JVal) : 1 ≤ jsize v := by
  cases v <;> simp [jsize]

theorem natToChars_length (n : Nat) : 1 ≤ (natToChars n).length := by
  obtain ⟨d, t, -, -, he⟩ := natToChars_shape n
  rw [he]
  simp

theorem intToChars_length (n : Int) : 1 ≤ (intToChars n).length := by
  cases n with
  | ofNat m => exact natToChars_length m
  | negSucc m => simp [intToChars]

theorem intToChars_head (n : Int) : ∃ c tl, intToChars n = c :: tl ∧
    c ≠ 'n' ∧ c ≠ 't' ∧ c ≠ 'f' ∧ c ≠ '"' ∧ c ≠ '[' ∧ c ≠ lbraceChar ∧
    jsonWs c = false := by
  cases n with
  | ofNat m =>
      obtain ⟨d, t, hd, -, he⟩ := natToChars_shape m
      obtain ⟨-, -, hws, hn, ht', hf, hq, hbr, hlb, -, -, -, -⟩ :=
        digitChar_facts d hd
      exact ⟨digitChar d, t, he, hn, ht', hf, hq, hbr, hlb, hws⟩
  | negSucc m =>
      exact ⟨'-', natToChars (m + 1), rfl, by decide, by decide, by decide,
        by decide, by decide, by decide, by decide⟩

theorem jdumpArr_head (ind : Nat) (x : JVal) (t : JArr) : ∃ c tl,
    jdumpArr ind x t = c :: tl ∧ jsonWs c = false ∧ c ≠ ']' ∧
    c ≠ rbraceChar := by
  obtain ⟨c, tl, he, h1, h2, h3⟩ := jdump_head x ind
  cases t with
  | nil => exact ⟨c, tl, by rw [jdumpArr]; exact he, h1, h2, h3⟩
  | cons y t2 =>
      exact ⟨c, tl ++ (',' :: '\n' :: (spacesL ind ++ jdumpArr ind y t2)),
        by rw [jdumpArr, he, List.cons_append], h1, h2, h3⟩

theorem jdumpObj_head (ind : Nat) (k : String) (v : JVal) (t : JObj) :
    ∃ tl, jdumpObj ind k v t = '"' :: tl := by
  cases t with
  | nil =>
      exact ⟨k.data ++ ('"' :: ':' :: ' ' :: jdump ind v), by rw [jdumpObj]⟩
  | cons k2 v2 t2 =>
      exact ⟨(k.data ++ ('"' :: ':' :: ' ' :: jdump ind v)) ++
        (',' :: '\n' :: (spacesL ind ++ jdumpObj ind k2 v2 t2)),
        by rw [jdumpObj, List.cons_append]⟩

mutual
theorem jdump_length (ind : Nat) (v : JVal) : jsize v ≤ (jdump ind v).length := by
  cases v with
  | null => rw [jdump]; simp [jsize]
  | bool b => cases b <;> (rw [jdump]; simp [jsize])
  | int n =>
      have := intToChars_length n
      rw [jdump]
      simp [jsize]
      omega
  | str s => rw [jdump]; simp [jsize]
  | arr xs =>
      cases xs with
      | nil => rw [jdump]; simp [jsize, jsizeA]
      | cons x t =>
          have h := jdumpArr_length (ind + 2) x t
          rw [jdump]
          simp [jsize, jsizeA, spacesL]
          omega
  | obj kvs =>
      cases kvs with
      | nil => rw [jdump]; simp [jsize, jsizeO]
      | cons k v t =>
          have h := jdumpObj_length (ind + 2) k v t
          rw [jdump]
          simp [jsize, jsizeO, spacesL]
          omega
termination_by sizeOf v
decreasing_by all_goals (simp_wf <;> omega)
theorem jdumpArr_length (ind : Nat) (x : JVal) (t : JArr) :
    jsize x + jsizeA t + 1 ≤ (jdumpArr ind x t).length + 1 := by
  cases t with
  | nil =>
      have := jdump_length ind x
      rw [jdumpArr]
      simp [jsizeA]
      omega
  | cons y t2 =>
      have h1 := jdump_length ind x
      have h2 := jdumpArr_length ind y t2
      rw [jdumpArr]
      simp [jsizeA, spacesL]
      omega
termination_by sizeOf x + sizeOf t
decreasing_by all_goals (simp_wf <;> omega)
theorem jdumpObj_length (ind : Nat) (k : String) (v : JVal) (t : JObj) :
    jsize v + jsizeO t + 1 ≤ (jdumpObj ind k v t).length + 1 := by
  cases t with
  | nil =>
      have := jdump_length ind v
      rw [jdumpObj]
      simp [jsizeO]
      omega
  | cons k2 v2 t2 =>
      have h1 := jdump_length ind v
      have h2 := jdumpObj_length ind k2 v2 t2
      rw [jdumpObj]
      simp [jsizeO, spacesL]
      omega
termination_by sizeOf v + sizeOf t
decreasing_by all_goals (simp_wf <;> omega)
end

theorem head_not_digit_cons (c0 : Char) (l : List Char)
    (h : c0.isDigit = false) :
    ∀ c, (c0 :: l).head? = some c → c.isDigit = false := by
  intro c hc
  rw [List.head?_cons, Option.some.injEq] at hc
  rw [← hc]
  exact h

theorem parse_jdump_complete : ∀ fuel : Nat,
    (∀ ind (v : JVal) (ws rest : List Char), jwf v = true → jsize v ≤ fuel →
      ws.all jsonWs = true →
      (∀ c, rest.head? = some c → c.isDigit = false) →
      parseVal fuel (ws ++ (jdump ind v ++ rest)) = some (v, rest)) ∧
    (∀ ind (x : JVal) (t : JArr) (ws1 ws2 rest : List Char),
      jwf x = true → jwfA t = true → jsize x + jsizeA t + 1 ≤ fuel →
      ws1.all jsonWs = true → ws2.all jsonWs = true →
      parseElems fuel (ws1 ++ (jdumpArr ind x t ++ (ws2 ++ (']' :: rest))))
        = some (JArr.cons x t, rest)) ∧
    (∀ ind (k : String) (v : JVal) (t : JObj) (ws1 ws2 rest : List Char),
      strOkB k = true → jwf v = true → jwfO t = true →
      jsize v + jsizeO t + 1 ≤ fuel →
      ws1.all jsonWs = true → ws2.all jsonWs = true →
      parseMembers fuel
        (ws1 ++ (jdumpObj ind k v t ++ (ws2 ++ (rbraceChar :: rest))))
        = some (JObj.cons k v t, rest)) := by
  intro fuel
  induction fuel with
  | zero =>
      refine ⟨?_, ?_, ?_⟩
      · intro ind v ws rest _ hsz _ _
        have := jsize_pos v
        omega
      · intro ind x t ws1 ws2 rest _ _ hsz _ _
        omega
      · intro ind k v t ws1 ws2 rest _ _ _ hsz _ _
        omega
  | succ fuel ih =>
      obtain ⟨ihV, ihE, ihM⟩ := ih
      refine ⟨?_, ?_, ?_⟩
      · -- parseVal
        intro ind v ws rest hwf hsz hws hrest
        cases v with
        | null =>
            rw [show jdump ind JVal.null = ['n', 'u', 'l', 'l'] from by
              rw [jdump]]
            simp only [parseVal]
            rw [skipWs_append_ws _ _ hws, List.cons_append,
              skipWs_cons_not_ws _ _ (by decide)]
            rfl
        | bool b =>
            cases b with
            | true =>
                rw [show jdump ind (JVal.bool true) = ['t', 'r', 'u', 'e']
                  from by rw [jdump]]
                simp only [parseVal]
                rw [skipWs_append_ws _ _ hws, List.cons_append,
                  skipWs_cons_not_ws _ _ (by decide)]
                rfl
            | false =>
                rw [show jdump ind (JVal.bool false) =
                  ['f', 'a', 'l', 's', 'e'] from by rw [jdump]]
                simp only [parseVal]
                rw [skipWs_append_ws _ _ hws, List.cons_append,
                  skipWs_cons_not_ws _ _ (by decide)]
                rfl
        | int n =>
            obtain ⟨c, tl, he, hn, ht', hf, hq, hbr, hlb, hcws⟩ :=
              intToChars_head n
            rw [show jdump ind (JVal.int n) = intToChars n from by rw [jdump]]
            have hs1 : skipWs (ws ++ (intToChars n ++ rest)) =
                c :: (tl ++ rest) := by
              rw [skipWs_append_ws _ _ hws, he, List.cons_append,
                skipWs_cons_not_ws _ _ hcws]
            simp only [parseVal, hs1]
            rw [if_neg hn, if_neg ht', if_neg hf, if_neg hq, if_neg hbr,
              if_neg hlb]
            rw [show (c :: (tl ++ rest) : List Char) = intToChars n ++ rest
              from by rw [he, List.cons_append]]
            simp only [parseIntL_complete n rest hrest]
        | str s =>
            have hsOk : s.data.all (fun c => !(c = '"' || c = bslashChar))
                = true := hwf
            rw [show jdump ind (JVal.str s) = '"' :: (s.data ++ ['"']) from by
              rw [jdump]]
            have hs1 : skipWs (ws ++ (('"' :: (s.data ++ ['"'])) ++ rest)) =
                '"' :: ((s.data ++ ['"']) ++ rest) := by
              rw [skipWs_append_ws _ _ hws, List.cons_append,
                skipWs_cons_not_ws _ _ (by decide)]
            simp only [parseVal, hs1]
            rw [if_neg (by decide : ¬('"' = 'n')),
              if_neg (by decide : ¬('"' = 't')),
              if_neg (by decide : ¬('"' = 'f')), if_pos trivial]
            rw [show (s.data ++ ['"']) ++ rest = s.data ++ ('"' :: rest)
              from by simp]
            simp only [parseStrBody_append s.data rest hsOk]
        | arr xs =>
            cases xs with
            | nil =>
                rw [show jdump ind (JVal.arr JArr.nil) = ['[', ']'] from by
                  rw [jdump]]
                simp only [parseVal]
                rw [skipWs_append_ws _ _ hws, List.cons_append,
                  skipWs_cons_not_ws _ _ (by decide)]
                rfl
            | cons x t =>
                have hwf2 : jwf x = true ∧ jwfA t = true := by
                  have h' : (jwf x && jwfA t) = true := hwf
                  simp only [Bool.and_eq_true] at h'
                  exact h'
                have hsz2 : jsize x + jsizeA t + 1 ≤ fuel := by
                  have h' : jsize (JVal.arr (JArr.cons x t)) =
                      jsize x + jsizeA t + 1 + 1 := rfl
                  omega
                have he : jdump ind (JVal.arr (JArr.cons x t)) = '[' ::
                    (('\n' :: spacesL (ind + 2)) ++ (jdumpArr (ind + 2) x t ++
                      ('\n' :: (spacesL ind ++ [']'])))) := by
                  rw [jdump]
                  simp
                obtain ⟨c2, tl2, heA, hwsA, hne2, -⟩ :=
                  jdumpArr_head (ind + 2) x t
                have hwd : ('\n' :: spacesL (ind + 2)).all jsonWs = true := by
                  rw [List.all_cons, spacesL_all_ws]
                  decide
                have hwd2 : ('\n' :: spacesL ind).all jsonWs = true := by
                  rw [List.all_cons, spacesL_all_ws]
                  decide
                have hs1 : skipWs (ws ++
                    (jdump ind (JVal.arr (JArr.cons x t)) ++ rest)) = '[' ::
                    ((('\n' :: spacesL (ind + 2)) ++ (jdumpArr (ind + 2) x t ++
                      ('\n' :: (spacesL ind ++ [']'])))) ++ rest) := by
                  rw [he, skipWs_append_ws _ _ hws, List.cons_append,
                    skipWs_cons_not_ws _ _ (by decide)]
                have hs2 : skipWs ((('\n' :: spacesL (ind + 2)) ++
                    (jdumpArr (ind + 2) x t ++
                      ('\n' :: (spacesL ind ++ [']'])))) ++ rest) =
                    c2 :: (tl2 ++ (('\n' :: (spacesL ind ++ [']'])) ++ rest))
                    := by
                  rw [List.append_assoc, skipWs_append_ws _ _ hwd,
                    List.append_assoc, heA, List.cons_append,
                    skipWs_cons_not_ws _ _ hwsA]
                simp only [parseVal, hs1]
                rw [if_neg (by decide : ¬('[' = 'n')),
                  if_neg (by decide : ¬('[' = 't')),
                  if_neg (by decide : ¬('[' = 'f')),
                  if_neg (by decide : ¬('[' = '"')), if_pos trivial]
                simp only [hs2]
                rw [if_neg hne2]
                rw [show c2 :: (tl2 ++ (('\n' :: (spacesL ind ++ [']'])) ++
                  rest)) = jdumpArr (ind + 2) x t ++ (('\n' :: spacesL ind) ++
                    (']' :: rest)) from by rw [heA]; simp]
                have hE := ihE (ind + 2) x t [] ('\n' :: spacesL ind) rest
                  hwf2.1 hwf2.2 hsz2 rfl hwd2
                rw [List.nil_append] at hE
                simp only [hE]
        | obj kvs =>
            cases kvs with
            | nil =>
                rw [show jdump ind (JVal.obj JObj.nil) =
                  [lbraceChar, rbraceChar] from by rw [jdump]]
                simp only [parseVal]
                rw [skipWs_append_ws _ _ hws, List.cons_append,
                  skipWs_cons_not_ws _ _ (by decide)]
                rfl
            | cons k v t =>
                have hwf2 : (strOkB k = true ∧ jwf v = true) ∧ jwfO t = true
                    := by
                  have h' : (strOkB k && jwf v && jwfO t) = true := hwf
                  simp only [Bool.and_eq_true] at h'
                  exact h'
                have hsz2 : jsize v + jsizeO t + 1 ≤ fuel := by
                  have h' : jsize (JVal.obj (JObj.cons k v t)) =
                      jsize v + jsizeO t + 1 + 1 := rfl
                  omega
                have he : jdump ind (JVal.obj (JObj.cons k v t)) =
                    lbraceChar :: (('\n' :: spacesL (ind + 2)) ++
                      (jdumpObj (ind + 2) k v t ++
                        ('\n' :: (spacesL ind ++ [rbraceChar])))) := by
                  rw [jdump]
                  simp
                obtain ⟨tlO, heO⟩ := jdumpObj_head (ind + 2) k v t
                have hwd : ('\n' :: spacesL (ind + 2)).all jsonWs = true := by
                  rw [List.all_cons, spacesL_all_ws]
                  decide
                have hwd2 : ('\n' :: spacesL ind).all jsonWs = true := by
                  rw [List.all_cons, spacesL_all_ws]
                  decide
                have hs1 : skipWs (ws ++
                    (jdump ind (JVal.obj (JObj.cons k v t)) ++ rest)) =
                    lbraceChar :: ((('\n' :: spacesL (ind + 2)) ++
                      (jdumpObj (ind + 2) k v t ++
                        ('\n' :: (spacesL ind ++ [rbraceChar])))) ++ rest)
                    := by
                  rw [he, skipWs_append_ws _ _ hws, List.cons_append,
                    skipWs_cons_not_ws _ _ (by decide)]
                have hs2 : skipWs ((('\n' :: spacesL (ind + 2)) ++
                    (jdumpObj (ind + 2) k v t ++
                      ('\n' :: (spacesL ind ++ [rbraceChar])))) ++ rest) =
                    '"' :: (tlO ++ (('\n' :: (spacesL ind ++ [rbraceChar])) ++
                      rest)) := by
                  rw [List.append_assoc, skipWs_append_ws _ _ hwd,
                    List.append_assoc, heO, List.cons_append,
                    skipWs_cons_not_ws _ _ (by decide)]
                simp only [parseVal, hs1]
                rw [if_neg (by decide : ¬(lbraceChar = 'n')),
                  if_neg (by decide : ¬(lbraceChar = 't')),
                  if_neg (by decide : ¬(lbraceChar = 'f')),
                  if_neg (by decide : ¬(lbraceChar = '"')),
                  if_neg (by decide : ¬(lbraceChar = '[')), if_pos trivial]
                simp only [hs2]
                rw [if_neg (by decide : ¬('"' = rbraceChar))]
                rw [show '"' :: (tlO ++ (('\n' :: (spacesL ind ++
                  [rbraceChar])) ++ rest)) = jdumpObj (ind + 2) k v t ++
                    (('\n' :: spacesL ind) ++ (rbraceChar :: rest)) from by
                  rw [heO]; simp]
                have hM := ihM (ind + 2) k v t [] ('\n' :: spacesL ind) rest
                  hwf2.1.1 hwf2.1.2 hwf2.2 hsz2 rfl hwd2
                rw [List.nil_append] at hM
                simp only [hM]
      · -- parseElems
        intro ind x t ws1 ws2 rest hwx hwt hsz hws1 hws2
        cases t with
        | nil =>
            have hszx : jsize x ≤ fuel := by
              have h' : jsizeA JArr.nil = 0 := rfl
              omega
            have hV := ihV ind x ws1 (ws2 ++ (']' :: rest)) hwx hszx hws1
              (head_not_digit_ws_close ws2 rest ']' hws2 (by decide))
            rw [show jdumpArr ind x JArr.nil = jdump ind x from by
              rw [jdumpArr]]
            simp only [parseElems, hV]
            have hs : skipWs (ws2 ++ (']' :: rest)) = ']' :: rest := by
              rw [skipWs_append_ws _ _ hws2, skipWs_cons_not_ws _ _ (by decide)]
            simp only [hs]
            rw [if_neg (by decide : ¬(']' = ',')), if_pos trivial]
        | cons y t2 =>
            have hwf2 : jwf y = true ∧ jwfA t2 = true := by
              have h' : (jwf y && jwfA t2) = true := hwt
              simp only [Bool.and_eq_true] at h'
              exact h'
            have hszx : jsize x ≤ fuel := by
              have h' : jsizeA (JArr.cons y t2) = jsize y + jsizeA t2 + 1
                  := rfl
              omega
            have hszy : jsize y + jsizeA t2 + 1 ≤ fuel := by
              have h' : jsizeA (JArr.cons y t2) = jsize y + jsizeA t2 + 1
                  := rfl
              have := jsize_pos x
              omega
            have hV := ihV ind x ws1
              (',' :: (('\n' :: (spacesL ind ++ jdumpArr ind y t2)) ++
                (ws2 ++ (']' :: rest)))) hwx hszx hws1
              (head_not_digit_cons ',' _ (by decide))
            rw [show jdumpArr ind x (JArr.cons y t2) ++ (ws2 ++ (']' :: rest))
              = jdump ind x ++ (',' :: (('\n' :: (spacesL ind ++
                jdumpArr ind y t2)) ++ (ws2 ++ (']' :: rest)))) from by
              rw [jdumpArr]; simp]
            simp only [parseElems, hV]
            have hsY : skipWs (',' :: (('\n' :: (spacesL ind ++
                jdumpArr ind y t2)) ++ (ws2 ++ (']' :: rest)))) =
                ',' :: (('\n' :: (spacesL ind ++ jdumpArr ind y t2)) ++
                  (ws2 ++ (']' :: rest))) :=
              skipWs_cons_not_ws _ _ (by decide)
            simp only [hsY]
            rw [if_pos trivial]
            rw [show ('\n' :: (spacesL ind ++ jdumpArr ind y t2)) ++
              (ws2 ++ (']' :: rest)) = ('\n' :: spacesL ind) ++
                (jdumpArr ind y t2 ++ (ws2 ++ (']' :: rest))) from by simp]
            have hwd2 : ('\n' :: spacesL ind).all jsonWs = true := by
              rw [List.all_cons, spacesL_all_ws]
              decide
            have hE := ihE ind y t2 ('\n' :: spacesL ind) ws2 rest hwf2.1
              hwf2.2 hszy hwd2 hws2
            simp only [hE]
      · -- parseMembers
        intro ind k v t ws1 ws2 rest hkOk hwv hwO hsz hws1 hws2
        cases t with
        | nil =>
            have hszv : jsize v ≤ fuel := by
              have h' : jsizeO JObj.nil = 0 := rfl
              omega
            have hkOk' : k.data.all (fun c => !(c = '"' || c = bslashChar))
                = true := hkOk
            have hs1 : skipWs (ws1 ++ (jdumpObj ind k v JObj.nil ++
                (ws2 ++ (rbraceChar :: rest)))) = '"' ::
                ((k.data ++ ('"' :: ':' :: ' ' :: jdump ind v)) ++
                  (ws2 ++ (rbraceChar :: rest))) := by
              rw [show jdumpObj ind k v JObj.nil = '"' ::
                (k.data ++ ('"' :: ':' :: ' ' :: jdump ind v)) from by
                rw [jdumpObj]]
              rw [skipWs_append_ws _ _ hws1, List.cons_append,
                skipWs_cons_not_ws _ _ (by decide)]
            simp only [parseMembers, hs1]
            rw [if_pos trivial]
            rw [show (k.data ++ ('"' :: ':' :: ' ' :: jdump ind v)) ++
              (ws2 ++ (rbraceChar :: rest)) = k.data ++ ('"' :: (':' ::
                (' ' :: (jdump ind v ++ (ws2 ++ (rbraceChar :: rest))))))
              from by simp]
            simp only [parseStrBody_append _ _ hkOk']
            have hsC : skipWs (':' :: (' ' :: (jdump ind v ++
                (ws2 ++ (rbraceChar :: rest))))) = ':' :: (' ' ::
                (jdump ind v ++ (ws2 ++ (rbraceChar :: rest)))) :=
              skipWs_cons_not_ws _ _ (by decide)
            simp only [hsC]
            have hV := ihV ind v [' '] (ws2 ++ (rbraceChar :: rest)) hwv hszv
              (by decide)
              (head_not_digit_ws_close ws2 rest rbraceChar hws2 (by decide))
            rw [show (' ' :: (jdump ind v ++ (ws2 ++ (rbraceChar :: rest))) :
              List Char) = [' '] ++ (jdump ind v ++
                (ws2 ++ (rbraceChar :: rest))) from by simp]
            simp only [hV]
            have hs : skipWs (ws2 ++ (rbraceChar :: rest)) =
                rbraceChar :: rest := by
              rw [skipWs_append_ws _ _ hws2, skipWs_cons_not_ws _ _ (by decide)]
            simp only [hs]
            rw [if_neg (by decide : ¬(rbraceChar = ',')), if_pos trivial]
        | cons k2 v2 t2 =>
            have hwf2 : (strOkB k2 = true ∧ jwf v2 = true) ∧ jwfO t2 = true
                := by
              have h' : (strOkB k2 && jwf v2 && jwfO t2) = true := hwO
              simp only [Bool.and_eq_true] at h'
              exact h'
            have hszv : jsize v ≤ fuel := by
              have h' : jsizeO (JObj.cons k2 v2 t2) = jsize v2 + jsizeO t2 + 1
                  := rfl
              omega
            have hszv2 : jsize v2 + jsizeO t2 + 1 ≤ fuel := by
              have h' : jsizeO (JObj.cons k2 v2 t2) = jsize v2 + jsizeO t2 + 1
                  := rfl
              have := jsize_pos v
              omega
            have hkOk' : k.data.all (fun c => !(c = '"' || c = bslashChar))
                = true := hkOk
            have hs1 : skipWs (ws1 ++ (jdumpObj ind k v (JObj.cons k2 v2 t2)
                ++ (ws2 ++ (rbraceChar :: rest)))) = '"' ::
                ((k.data ++ ('"' :: (':' :: (' ' :: (jdump ind v ++
                  (',' :: ('\n' :: (spacesL ind ++
                    jdumpObj ind k2 v2 t2)))))))) ++
                  (ws2 ++ (rbraceChar :: rest))) := by
              rw [show jdumpObj ind k v (JObj.cons k2 v2 t2) = '"' ::
                (k.data ++ ('"' :: (':' :: (' ' :: (jdump ind v ++
                  (',' :: ('\n' :: (spacesL ind ++
                    jdumpObj ind k2 v2 t2)))))))) from by
                rw [jdumpObj]; simp]
              rw [skipWs_append_ws _ _ hws1, List.cons_append,
                skipWs_cons_not_ws _ _ (by decide)]
            simp only [parseMembers, hs1]
            rw [if_pos trivial]
            rw [show (k.data ++ ('"' :: (':' :: (' ' :: (jdump ind v ++
              (',' :: ('\n' :: (spacesL ind ++ jdumpObj ind k2 v2 t2))))))))
              ++ (ws2 ++ (rbraceChar :: rest)) = k.data ++ ('"' :: (':' ::
                (' ' :: (jdump ind v ++ (',' :: (('\n' :: (spacesL ind ++
                  jdumpObj ind k2 v2 t2)) ++ (ws2 ++ (rbraceChar :: rest))))))))
              from by simp]
            simp only [parseStrBody_append _ _ hkOk']
            have hsC : skipWs (':' :: (' ' :: (jdump ind v ++ (',' ::
                (('\n' :: (spacesL ind ++ jdumpObj ind k2 v2 t2)) ++
                  (ws2 ++ (rbraceChar :: rest))))))) = ':' :: (' ' ::
                (jdump ind v ++ (',' :: (('\n' :: (spacesL ind ++
                  jdumpObj ind k2 v2 t2)) ++ (ws2 ++ (rbraceChar :: rest))))))
                :=
              skipWs_cons_not_ws _ _ (by decide)
            simp only [hsC]
            have hV := ihV ind v [' ']
              (',' :: (('\n' :: (spacesL ind ++ jdumpObj ind k2 v2 t2)) ++
                (ws2 ++ (rbraceChar :: rest)))) hwv hszv (by decide)
              (head_not_digit_cons ',' _ (by decide))
            rw [show (' ' :: (jdump ind v ++ (',' :: (('\n' :: (spacesL ind ++
              jdumpObj ind k2 v2 t2)) ++ (ws2 ++ (rbraceChar :: rest))))) :
              List Char) = [' '] ++ (jdump ind v ++ (',' :: (('\n' ::
                (spacesL ind ++ jdumpObj ind k2 v2 t2)) ++
                  (ws2 ++ (rbraceChar :: rest))))) from by simp]
            simp only [hV]
            have hsY : skipWs (',' :: (('\n' :: (spacesL ind ++
                jdumpObj ind k2 v2 t2)) ++ (ws2 ++ (rbraceChar :: rest)))) =
                ',' :: (('\n' :: (spacesL ind ++ jdumpObj ind k2 v2 t2)) ++
                  (ws2 ++ (rbraceChar :: rest))) :=
              skipWs_cons_not_ws _ _ (by decide)
            simp only [hsY]
            rw [if_pos trivial]
            rw [show ('\n' :: (spacesL ind ++ jdumpObj ind k2 v2 t2)) ++
              (ws2 ++ (rbraceChar :: rest)) = ('\n' :: spacesL ind) ++
                (jdumpObj ind k2 v2 t2 ++ (ws2 ++ (rbraceChar :: rest)))
              from by simp]
            have hwd2 : ('\n' :: spacesL ind).all jsonWs = true := by
              rw [List.all_cons, spacesL_all_ws]
              decide
            have hM := ihM ind k2 v2 t2 ('\n' :: spacesL ind) ws2 rest
              hwf2.1.1 hwf2.1.2 hwf2.2 hszv2 hwd2 hws2
            simp only [hM]

theorem jsonLoads_jsonDumps2 (v : JVal) (h : jwf v = true) :
    jsonLoads (jsonDumps2 v) = some v := by
  have hA := (parse_jdump_complete ((jdump 0 v).length + 1)).1 0 v [] [] h
    (by have := jdump_length 0 v; omega) rfl (by intro c hc; simp at hc)
  rw [List.nil_append, List.append_nil] at hA
  show (match parseVal ((jdump 0 v).length + 1) (jdump 0 v) with
    | some (v, rest) => if (skipWs rest).isEmpty then some v else none
    | none => none) = some v
  simp only [hA]
  rfl

theorem parse_wf : ∀ fuel : Nat,
    (∀ cs v r, parseVal fuel cs = some (v, r) → jwf v = true) ∧
    (∀ cs xs r, parseElems fuel cs = some (xs, r) → jwfA xs = true) ∧
    (∀ cs kvs r, parseMembers fuel cs = some (kvs, r) → jwfO kvs = true) := by
  intro fuel
  induction fuel with
  | zero =>
      refine ⟨?_, ?_, ?_⟩ <;> (intro cs a r h; simp [parseVal, parseElems,
        parseMembers] at h)
  | succ fuel ih =>
      obtain ⟨ihV, ihE, ihM⟩ := ih
      refine ⟨?_, ?_, ?_⟩
      · intro cs v r h
        simp only [parseVal] at h
        split at h
        · simp at h
        · split at h
          · split at h
            · simp only [Option.some.injEq, Prod.mk.injEq] at h
              rw [← h.1]
              rfl
            · simp at h
          · split at h
            · split at h
              · simp only [Option.some.injEq, Prod.mk.injEq] at h
                rw [← h.1]
                rfl
              · simp at h
            · split at h
              · split at h
                · simp only [Option.some.injEq, Prod.mk.injEq] at h
                  rw [← h.1]
                  rfl
                · simp at h
              · split at h
                · split at h
                  · rename_i a r' hps
                    simp only [Option.some.injEq, Prod.mk.injEq] at h
                    rw [← h.1]
                    exact parseStrBody_ok _ a r' hps
                  · simp at h
                · split at h
                  · split at h
                    · simp at h
                    · split at h
                      · simp only [Option.some.injEq, Prod.mk.injEq] at h
                        rw [← h.1]
                        rfl
                      · split at h
                        · rename_i xs r3 hpe
                          simp only [Option.some.injEq, Prod.mk.injEq] at h
                          rw [← h.1]
                          exact ihE _ xs r3 hpe
                        · simp at h
                  · split at h
                    · split at h
                      · simp at h
                      · split at h
                        · simp only [Option.some.injEq, Prod.mk.injEq] at h
                          rw [← h.1]
                          rfl
                        · split at h
                          · rename_i kvs r3 hpm
                            simp only [Option.some.injEq, Prod.mk.injEq] at h
                            rw [← h.1]
                            exact ihM _ kvs r3 hpm
                          · simp at h
                    · split at h
                      · simp only [Option.some.injEq, Prod.mk.injEq] at h
                        rw [← h.1]
                        rfl
                      · simp at h
      · intro cs xs r h
        simp only [parseElems] at h
        split at h
        · rename_i v' r' hpv
          split at h
          · simp at h
          · split at h
            · split at h
              · rename_i xs' r4 hpe
                simp only [Option.some.injEq, Prod.mk.injEq] at h
                rw [← h.1]
                have h1 := ihV _ v' r' hpv
                have h2 := ihE _ xs' r4 hpe
                simp [jwfA, h1, h2]
              · simp at h
            · split at h
              · simp only [Option.some.injEq, Prod.mk.injEq] at h
                rw [← h.1]
                have h1 := ihV _ v' r' hpv
                simp [jwfA, h1]
              · simp at h
        · simp at h
      · intro cs kvs r h
        simp only [parseMembers] at h
        split at h
        · simp at h
        · split at h
          · split at h
            · rename_i k0 r' hps
              split at h
              · split at h
                · rename_i v0 r4 hpv
                  split at h
                  · simp at h
                  · split at h
                    · split at h
                      · rename_i kvs0 r6 hpm
                        simp only [Option.some.injEq, Prod.mk.injEq] at h
                        rw [← h.1]
                        have hk : strOkB (String.mk k0) = true :=
                          parseStrBody_ok _ k0 r' hps
                        have h1 := ihV _ v0 r4 hpv
                        have h2 := ihM _ kvs0 r6 hpm
                        simp [jwfO, hk, h1, h2]
                      · simp at h
                    · split at h
                      · simp only [Option.some.injEq, Prod.mk.injEq] at h
                        rw [← h.1]
                        have hk : strOkB (String.mk k0) = true :=
                          parseStrBody_ok _ k0 r' hps
                        have h1 := ihV _ v0 r4 hpv
                        simp [jwfO, hk, h1]
                      · simp at h
                · simp at h
              · simp at h
            · simp at h
          · simp at h

theorem jsonLoads_wf (s : String) (v : JVal) (h : jsonLoads s = some v) :
    jwf v = true := by
  unfold jsonLoads at h
  split at h
  · rename_i v' rest hpv
    split at h
    · rw [← Option.some.inj h]
      exact (parse_wf _).1 _ _ _ hpv
    · simp at h
  · simp at h

/-- C3: for every response with `Content-Type` containing
`application/json` (and not matching an earlier binary-family test) whose
body is valid UTF-8, the decoder attempts a JSON parse of the decoded
body; on success it stores a Json payload (`json.dumps(..., indent=2)` of
the parsed value) whose parsed content equals the body's JSON value, and
on parse failure it falls back to a Text payload equal to the decoded
body, raising no error. (A body that is not valid UTF-8 instead raises
`UnicodeDecodeError` out of the branch, since `except json.JSONDecodeError`
does not catch it; that case is outside the parse-success/parse-failure
dichotomy stated here.) -/
theorem json_content_type_decode (ct cd : String) (data : List Nat)
    (s : String)
    (hct : pyIn "application/json" ct = true)
    (hbin : (pyIn "application/octet-stream" ct || pyIn "image/" ct ||
      pyIn "audio/" ct || pyIn "video/" ct) = false)
    (hdec : utf8DecodeQ data = some s) :
    (∀ v, jsonLoads s = some v →
      makeRequestDecode ct cd data = .jsonP (jsonDumps2 v) ∧
      jsonLoads (jsonDumps2 v) = some v) ∧
    (jsonLoads s = none → makeRequestDecode ct cd data = .textP s) := by
  have hta : ct.data ≠ [] := by
    intro hnil
    rw [show pyIn "application/json" ct =
      pyInL "application/json".data ct.data from rfl, hnil] at hct
    exact absurd hct (by decide)
  have htr : pyTruthy ct = true := by
    have hne : ct.data.isEmpty = false := by
      cases hd : ct.data with
      | nil => exact absurd hd hta
      | cons a l => rfl
    unfold pyTruthy
    rw [hne]
    rfl
  have hbin' : ¬((pyIn "application/octet-stream" ct || pyIn "image/" ct ||
      pyIn "audio/" ct || pyIn "video/" ct) = true) := by
    rw [hbin]
    decide
  constructor
  · intro v hv
    constructor
    · have h1 : processContent ct cd data = .ok (.jsonP (jsonDumps2 v)) := by
        unfold processContent
        rw [if_pos htr, if_neg hbin', if_pos hct]
        simp only [hdec, hv]
      unfold makeRequestDecode
      simp only [h1]
    · exact jsonLoads_jsonDumps2 v (jsonLoads_wf s v hv)
  · intro hv
    have h2 : utf8Replace data = s := utf8Replace_of_decodeQ data s hdec
    have h1 : processContent ct cd data = .ok (.textP s) := by
      unfold processContent
      rw [if_pos htr, if_neg hbin', if_pos hct]
      simp only [hdec, hv, h2]
    unfold makeRequestDecode
    simp only [h1]

theorem json_content_type_decode_witness :
    (pyIn "application/json" "application/json" = true ∧
     (pyIn "application/octet-stream" "application/json" ||
      pyIn "image/" "application/json" || pyIn "audio/" "application/json" ||
      pyIn "video/" "application/json") = false ∧
     utf8DecodeQ [123, 34, 120, 34, 58, 49, 125] = some "\x7b\"x\":1\x7d") ∧
    ((∀ v, jsonLoads "\x7b\"x\":1\x7d" = some v →
      makeRequestDecode "application/json" "" [123, 34, 120, 34, 58, 49, 125]
        = .jsonP (jsonDumps2 v) ∧ jsonLoads (jsonDumps2 v) = some v) ∧
     (jsonLoads "\x7b\"x\":1\x7d" = none →
      makeRequestDecode "application/json" "" [123, 34, 120, 34, 58, 49, 125]
        = .textP "\x7b\"x\":1\x7d")) :=
  ⟨⟨by decide, by decide, by rfl⟩,
   json_content_type_decode "application/json" ""
     [123, 34, 120, 34, 58, 49, 125] "\x7b\"x\":1\x7d"
     (by decide) (by decide) (by rfl)⟩
